import Mathlib

/-!
# Concurrent blockchain miner (`main.cpp`)

A shallow embedding of the mining core of `main.cpp` and the properties proved about it.

* Machine words are naturals, reduced modulo `2^32` where the C++ type is `unsigned int`; the
  shared `atomic<int>` counter is kept as its 32-bit pattern, and `size_t` has 64 bits.
* The records allocated with `new` live in a store (`transactionChain.mem`); a pointer is an
  index into the store and `nullptr` is `none`.
* The threads running `mine` form a transition system: `mineStep p s tid` lets thread `tid`
  execute the block of `mine` at which it stands, and a run is a schedule, the list of the
  threads that move, applied to the state in which `main` raises `start_flag`.
* `std::hash<unsigned int>` is implementation-defined and is a parameter (`uint_hash`).
* The values produced by `dist(rng)` in each thread are a parameter (`rng`).
-/

set_option autoImplicit false

namespace Blockchain

/-! ## Words and the hash -/

/-- Left shift `x << k` on `unsigned int`: the low 32 bits of the shifted value. -/
def shl32 (x k : Nat) : Nat := (x <<< k) % 4294967296

/-- The word computed inline by `mine` at lines 120 and 129:
`(current_id << 16) ^ (prev_hash << 8) ^ (random_value << 1)`. -/
def hashValue (current_id prev_hash random_value : Nat) : Nat :=
  (shl32 current_id 16 ^^^ shl32 prev_hash 8) ^^^ shl32 random_value 1

/-- A record of the chain (`struct transaction`). `next` and `previous` are pointers. -/
structure transaction where
  current : Nat
  prev : Nat
  rand : Nat
  miner_id : Nat
  next : Option Nat
  previous : Option Nat
deriving DecidableEq, Repr

/-- The function `hashTransaction` of lines 55-59: the packed word is passed through
`std::hash<unsigned int>` (the parameter `uint_hash`, which returns a `size_t`) and the result is
converted to `unsigned int`. -/
def hashTransaction (uint_hash : Nat → Nat) (tran : transaction) : Nat :=
  let result := (shl32 tran.current 16 ^^^ shl32 tran.prev 8) ^^^ shl32 tran.rand 1
  uint_hash result % 4294967296

/-- One round of 64-bit FNV-1a: xor a byte in, multiply by the FNV prime. -/
def fnv1aByte (h b : Nat) : Nat := ((h ^^^ b) * 1099511628211) % 18446744073709551616

/-- A non-trivial instance of `std::hash<unsigned int>`: 64-bit FNV-1a over the four bytes of the
key, least significant byte first (the scheme of standard libraries that hash integers by their
object representation). -/
def fnv1a_hash (x : Nat) : Nat :=
  fnv1aByte (fnv1aByte (fnv1aByte (fnv1aByte 14695981039346656037 (x % 256))
    (x / 256 % 256)) (x / 65536 % 256)) (x / 16777216 % 256)

/-- The threshold computed by `main` at line 177, `(1LL << (32 - difficulty)) - 1` stored in an
`unsigned int` (for `difficulty <= 32`; `main` admits 1..10). -/
def threshold_of (difficulty : Nat) : Nat := ((1 <<< (32 - difficulty)) - 1) % 4294967296

/-- The bound `pow(10, difficulty - 1)` of line 98, where `difficulty - 1` is computed on
`unsigned int`. -/
def work_factor (difficulty : Nat) : Nat := 10 ^ ((difficulty + 4294967295) % 4294967296)

/-! ## The shared cursor -/

/-- Conversion to the 64-bit `size_t` of the `int` whose 32-bit pattern is `c`; this is what the
comparison with `transaction_ids.size()` and the subscript `transaction_ids[index]` see. -/
def toSizeT (c : Nat) : Nat := if c < 2147483648 then c else c + 18446744069414584320

/-- Lines 104-107 as one atomic step on the counter (`c` is its 32-bit pattern, `N` the worklist
length): the subscript claimed, or `none` when the loop breaks, and the incremented counter. -/
def claim (N c : Nat) : Option Nat × Nat :=
  (if toSizeT c ≥ N then none else some (toSizeT c), (c + 1) % 4294967296)

/-- The results of `k` successive claims starting from counter `c`. -/
def claims (N : Nat) : Nat → Nat → List (Option Nat)
  | _, 0 => []
  | c, k + 1 => (claim N c).1 :: claims N (claim N c).2 k

/-! ## The chain -/

/-- The chain (`struct transactionChain`) together with the store holding the records. -/
structure transactionChain where
  mem : List transaction
  head : Option Nat
  tail : Option Nat
deriving DecidableEq, Repr

/-- The constructor `transactionChain()`, in a store with no record yet. -/
def transactionChain.empty : transactionChain := ⟨[], none, none⟩

/-- The expression `new transaction(c, p, r, id)`: a fresh record with null links; returns the
store extended and the pointer. -/
def transactionChain.alloc (tc : transactionChain) (c p r id : Nat) : transactionChain × Nat :=
  ({ tc with mem := tc.mem ++ [⟨c, p, r, id, none, none⟩] }, tc.mem.length)

/-- The assignment `a->next = v`. -/
def setNext (mem : List transaction) (a : Nat) (v : Option Nat) : List transaction :=
  match mem[a]? with
  | none => mem
  | some t => mem.set a { t with next := v }

/-- The assignment `a->previous = v`. -/
def setPrevious (mem : List transaction) (a : Nat) (v : Option Nat) : List transaction :=
  match mem[a]? with
  | none => mem
  | some t => mem.set a { t with previous := v }

/-- The method `transactionChain::add` of lines 41-51. When `head` is set `tail` is set too
(they are only assigned together), so the last-but-one branch is never taken. -/
def transactionChain.add (tc : transactionChain) (new_transaction : Nat) : transactionChain :=
  match tc.head with
  | none => { tc with head := some new_transaction, tail := some new_transaction }
  | some _ =>
    match tc.tail with
    | none => tc
    | some t =>
      { mem := setPrevious (setNext tc.mem t (some new_transaction)) new_transaction (some t)
        head := tc.head
        tail := some new_transaction }

/-- The two statements `new transaction(c, p, r, id)` and `add` of lines 141-142 and 229-230. -/
def transactionChain.addNew (tc : transactionChain) (c p r id : Nat) : transactionChain :=
  (tc.alloc c p r id).1.add (tc.alloc c p r id).2

/-- A chain built from the empty one by adding fresh records `(current, prev, rand, miner)`,
each allocated when it is added. -/
def buildChain (recs : List (Nat × Nat × Nat × Nat)) : transactionChain :=
  recs.foldl (fun tc r => tc.addNew r.1 r.2.1 r.2.2.1 r.2.2.2) transactionChain.empty

/-- The `while` loop of `transactionValidator` (lines 69-81). Every iteration uses one unit of
`fuel`; `none` stands for a loop that does not return within the fuel (or follows a pointer
that is not in the store). -/
def validatorLoop (uint_hash : Nat → Nat) (mem : List transaction) (threshold : Nat) :
    Nat → Option Nat → Option Nat → Option Bool
  | _, none, _ => some true
  | 0, some _, _ => none
  | fuel + 1, some current, previous =>
    match mem[current]? with
    | none => none
    | some t =>
      if hashTransaction uint_hash t > threshold then some false
      else if t.previous ≠ previous then some false
      else validatorLoop uint_hash mem threshold fuel t.next (some current)

/-- The function `transactionValidator` of lines 62-82. The loop gets as many iterations as
there are records in the store: a traversal that needs more has entered a cycle. -/
def transactionValidator (uint_hash : Nat → Nat) (tChain : transactionChain) (threshold : Nat) :
    Option Bool :=
  match tChain.head with
  | none => some true
  | some h =>
    match tChain.mem[h]? with
    | none => none
    | some hd => validatorLoop uint_hash tChain.mem threshold tChain.mem.length hd.next (some h)

/-- The pointers met when following `next` from `current` until `nullptr`, within `fuel` steps. -/
def forward (mem : List transaction) : Nat → Option Nat → Option (List Nat)
  | _, none => some []
  | 0, some _ => none
  | fuel + 1, some current =>
    match mem[current]? with
    | none => none
    | some t => (forward mem fuel t.next).map (fun l => current :: l)

/-- The chain in forward traversal order, as the list of its pointers starting with `head`. -/
def traversal (tc : transactionChain) : Option (List Nat) :=
  forward tc.mem (tc.mem.length + 1) tc.head

/-- The checks the validator makes on the records `l` that follow the record `previous`:
each has a hash within the threshold and a backward link to the record just before it. -/
def linksOk (uint_hash : Nat → Nat) (mem : List transaction) (threshold : Nat) :
    Option Nat → List Nat → Prop
  | _, [] => True
  | previous, a :: l =>
    (∃ t, mem[a]? = some t ∧ hashTransaction uint_hash t ≤ threshold ∧ t.previous = previous) ∧
      linksOk uint_hash mem threshold (some a) l

/-- The checks of the validator on a whole chain given by its forward traversal `l`: nothing
for the empty chain, otherwise `linksOk` for the records after the head record. -/
def chainOk (uint_hash : Nat → Nat) (mem : List transaction) (threshold : Nat) :
    List Nat → Prop
  | [] => True
  | h :: rest => linksOk uint_hash mem threshold (some h) rest

/-- The data of a record: `current`, `prev`, `rand` and `miner_id`, without the links. -/
def payload (t : transaction) : Nat × Nat × Nat × Nat := (t.current, t.prev, t.rand, t.miner_id)

/-- The shape of a chain whose records were all added right after their allocation: the records
of the store are linked in the order of their addresses, `head` is the first and `tail` the
last. -/
def Linked (tc : transactionChain) : Prop :=
  tc.head = (if tc.mem.length = 0 then none else some 0) ∧
  tc.tail = (if tc.mem.length = 0 then none else some (tc.mem.length - 1)) ∧
  ∀ (i : Nat) (t : transaction), tc.mem[i]? = some t →
    t.next = (if i + 1 < tc.mem.length then some (i + 1) else none) ∧
    t.previous = (if i = 0 then none else some (i - 1))

/-- All the records of `l` have a hash within the threshold. -/
def allBelow (uint_hash : Nat → Nat) (threshold : Nat) (l : List transaction) : Bool :=
  l.all (fun t => decide (hashTransaction uint_hash t ≤ threshold))

/-! ## The mining threads -/

/-- The blocks of `mine` between which a thread can be observed. -/
inductive Loc where
  | claim
  | readTail
  | search
  | penalty
  | commit
  | done
deriving DecidableEq, Repr

/-- The local variables of one thread running `mine`; `draws` counts the calls `dist(rng)` made
so far. -/
structure MinerState where
  pc : Loc
  bitcoins : Nat
  index : Nat
  current_id : Nat
  prev_hash : Nat
  random_value : Nat
  i : Nat
  processed_transactions : List Nat
  draws : Nat
deriving DecidableEq, Repr

/-- What a run is started with: the arguments of `mine`, the number of threads, and the two
functions the environment provides. -/
structure Params where
  transaction_ids : List Nat
  threshold : Nat
  difficulty : Nat
  miners : Nat
  uint_hash : Nat → Nat
  rng : Nat → Nat → Nat

/-- The shared variables and the threads. -/
structure State where
  tChain : transactionChain
  current_transaction_index : Nat
  thread : Nat → MinerState

/-- The call `dist(rng)` in thread `tid`: the next value of its stream, an `unsigned int`. -/
def dist (p : Params) (tid : Nat) (m : MinerState) : Nat := p.rng tid m.draws % 4294967296

/-- Lines 110-116: the hash of the tail record read under `chain_mutex`, 0 for an empty chain. -/
def tailHash (uint_hash : Nat → Nat) (tc : transactionChain) : Nat :=
  match tc.tail with
  | none => 0
  | some t =>
    match tc.mem[t]? with
    | none => 0
    | some tr => hashTransaction uint_hash tr

/-- Lines 104-109: the atomic `fetch_add` on the shared counter and the bound test; the thread
leaves the loop, or reads the id at the claimed index and resets `prev_hash`. -/
def stepClaim (p : Params) (s : State) (tid : Nat) : State :=
  match (claim p.transaction_ids.length s.current_transaction_index).1 with
  | none =>
    { tChain := s.tChain
      current_transaction_index := (claim p.transaction_ids.length s.current_transaction_index).2
      thread := Function.update s.thread tid { s.thread tid with pc := Loc.done } }
  | some index =>
    { tChain := s.tChain
      current_transaction_index := (claim p.transaction_ids.length s.current_transaction_index).2
      thread := Function.update s.thread tid
        { s.thread tid with
          index := index
          current_id := p.transaction_ids.getD index 0
          prev_hash := 0
          pc := Loc.readTail } }

/-- Lines 111-116: the hash of the tail is read under `chain_mutex`. -/
def stepReadTail (p : Params) (s : State) (tid : Nat) : State :=
  { s with
    thread := Function.update s.thread tid
      { s.thread tid with prev_hash := tailHash p.uint_hash s.tChain, pc := Loc.search } }

/-- Lines 119-122: one draw and the test of the inline word; on success the penalty loop is
entered with `i = 0`, otherwise the search loop goes round. -/
def stepSearch (p : Params) (s : State) (tid : Nat) : State :=
  if hashValue (s.thread tid).current_id (s.thread tid).prev_hash (dist p tid (s.thread tid))
      ≤ p.threshold then
    { s with
      thread := Function.update s.thread tid
        { s.thread tid with
          random_value := dist p tid (s.thread tid)
          draws := (s.thread tid).draws + 1
          i := 0
          pc := Loc.penalty } }
  else
    { s with
      thread := Function.update s.thread tid
        { s.thread tid with
          random_value := dist p tid (s.thread tid)
          draws := (s.thread tid).draws + 1 } }

/-- Lines 123-125: one iteration of the penalty loop (a draw that overwrites `random_value`),
or its exit towards the commit. -/
def stepPenalty (p : Params) (s : State) (tid : Nat) : State :=
  if (s.thread tid).i < work_factor p.difficulty then
    { s with
      thread := Function.update s.thread tid
        { s.thread tid with
          random_value := dist p tid (s.thread tid)
          draws := (s.thread tid).draws + 1
          i := ((s.thread tid).i + 1) % 4294967296 } }
  else
    { s with thread := Function.update s.thread tid { s.thread tid with pc := Loc.commit } }

/-- Lines 127-145, executed under `chain_add_mutex`: the word is computed again with the current
`random_value`; the thread goes back to the search (`continue`), or skips an id it has already
processed (`break`), or adds the record and counts it (`break`). -/
def stepCommit (p : Params) (s : State) (tid : Nat) : State :=
  if hashValue (s.thread tid).current_id (s.thread tid).prev_hash (s.thread tid).random_value
      > p.threshold then
    { s with thread := Function.update s.thread tid { s.thread tid with pc := Loc.search } }
  else if (s.thread tid).current_id ∈ (s.thread tid).processed_transactions then
    { s with thread := Function.update s.thread tid { s.thread tid with pc := Loc.claim } }
  else
    { s with
      tChain := s.tChain.addNew (s.thread tid).current_id (s.thread tid).prev_hash
        (s.thread tid).random_value tid
      thread := Function.update s.thread tid
        { s.thread tid with
          processed_transactions :=
            (s.thread tid).current_id :: (s.thread tid).processed_transactions
          bitcoins := ((s.thread tid).bitcoins + 1) % 4294967296
          pc := Loc.claim } }

/-- One step of thread `tid` in the loop of `mine` (lines 103-148): the block at which the
thread stands is executed. A thread that has left the loop, or a `tid` that is not a thread of
the run, does nothing. -/
def mineStep (p : Params) (s : State) (tid : Nat) : State :=
  if tid < p.miners then
    match (s.thread tid).pc with
    | Loc.claim => stepClaim p s tid
    | Loc.readTail => stepReadTail p s tid
    | Loc.search => stepSearch p s tid
    | Loc.penalty => stepPenalty p s tid
    | Loc.commit => stepCommit p s tid
    | Loc.done => s
  else s

/-- The state in which `main` raises `start_flag` (lines 227-249): the chain holds the genesis
record `(0, 0, 0)`, the counter is 0 and every thread is about to enter the loop of `mine`. -/
def init (p : Params) : State :=
  { tChain := transactionChain.empty.addNew 0 0 0 p.miners
    current_transaction_index := 0
    thread := fun _ => ⟨Loc.claim, 0, 0, 0, 0, 0, 0, [], 0⟩ }

/-- The state reached from `s` when the threads listed in `schedule` take one step each, in
that order. -/
def run (p : Params) (schedule : List Nat) (s : State) : State :=
  schedule.foldl (mineStep p) s

/-- All threads have left the loop of `mine`. -/
def Completed (p : Params) (s : State) : Prop :=
  ∀ tid, tid < p.miners → (s.thread tid).pc = Loc.done

/-- The sum of the `bitcoins` counters of the threads. -/
def totalBitcoins (p : Params) (s : State) : Nat :=
  ∑ tid in Finset.range p.miners, (s.thread tid).bitcoins

/-- The scenario of three ids, one thread and difficulty 1, with the identity as
`std::hash<unsigned int>` and a generator whose `k`-th draw is `7919 * k`. -/
def sampleParams : Params :=
  ⟨[10, 20, 30], threshold_of 1, 1, 1, fun x => x, fun _ k => k * 7919⟩

/-- Three ids, two threads, difficulty 1, the identity as `std::hash<unsigned int>`; the `k`-th
draw of thread `tid` is `7919 * k + tid`. -/
def twoThreadParams : Params :=
  ⟨[10, 20, 30], threshold_of 1, 1, 2, fun x => x, fun tid k => k * 7919 + tid⟩

/-- One id, one thread, difficulty 1, FNV-1a as `std::hash<unsigned int>` and a generator that
always yields `1073741828`. -/
def fnvParams : Params :=
  ⟨[1], threshold_of 1, 1, 1, fnv1a_hash, fun _ _ => 1073741828⟩

/-- The id 5 at two positions of the worklist, one thread, difficulty 1, the identity as
`std::hash<unsigned int>` and a generator that always yields 0. -/
def duplicateParams : Params :=
  ⟨[5, 5], threshold_of 1, 1, 1, fun x => x, fun _ _ => 0⟩

/-- A run with more ids than an `int` can index: `2^31 + 1` pairwise distinct ids, one thread,
difficulty 1, the identity as `std::hash<unsigned int>`, and a generator whose draws number
`2k` and `2k + 1` are the nonce `(k mod 2^16) * 2^15`, which makes the word of id `k` zero. -/
def overflowParams : Params :=
  ⟨List.range 2147483649, threshold_of 1, 1, 1, fun x => x,
    fun _ k => (k / 2 % 65536) * 32768⟩

/-- A run with so many threads that the counter wraps: one id, `2^32` threads, difficulty 1,
the identity as `std::hash<unsigned int>`, and a generator that always yields the nonce
`229376`, which makes the word of id 7 after a zero digest zero. -/
def wrapParams : Params :=
  ⟨[7], threshold_of 1, 1, 4294967296, fun x => x, fun _ _ => 229376⟩

/-- The schedule of the run of `wrapParams`: thread 0 mines the id and leaves, the threads
1 to `2^32 - 2` each find the worklist exhausted, which brings the counter back to 0, and the
last thread mines the id again and leaves. -/
def wrapSchedule : List Nat :=
  List.replicate 7 0 ++ (List.range' 1 4294967294 ++ List.replicate 7 4294967295)

/-- The state of the run of `wrapParams` once thread 0 has left and the threads 1 to `j` have
found the worklist exhausted. -/
def AfterExits (j : Nat) (s : State) : Prop :=
  s.current_transaction_index = (2 + j) % 4294967296 ∧
  (s.thread 0).pc = Loc.done ∧ (s.thread 0).bitcoins = 1 ∧
  (∀ t, 1 ≤ t → t ≤ j → (s.thread t).pc = Loc.done ∧ (s.thread t).bitcoins = 0) ∧
  (∀ t, j < t → s.thread t = (init wrapParams).thread t) ∧
  Linked s.tChain ∧ tailHash (fun x => x) s.tChain = 0

/-- The state of the run of `overflowParams` after `k` full rounds of its thread. -/
def AfterRounds (k : Nat) (s : State) : Prop :=
  s.current_transaction_index = k ∧ (s.thread 0).pc = Loc.claim ∧ (s.thread 0).bitcoins = k ∧
  (s.thread 0).draws = 2 * k ∧ (∀ x, x ∈ (s.thread 0).processed_transactions → x < k) ∧
  Linked s.tChain ∧ tailHash (fun x => x) s.tChain = 0

/-- 1 for a thread that holds a claimed index it has not finished with, 0 otherwise. -/
def busy (m : MinerState) : Nat :=
  match m.pc with
  | Loc.claim => 0
  | Loc.done => 0
  | _ => 1

/-- 1 for a thread that has left the loop, 0 otherwise. -/
def gone (m : MinerState) : Nat :=
  match m.pc with
  | Loc.done => 1
  | _ => 0

/-- The hash of a record given by its data. -/
def hashRecord (uint_hash : Nat → Nat) (r : Nat × Nat × Nat × Nat) : Nat :=
  uint_hash (hashValue r.1 r.2.1 r.2.2.1) % 4294967296

/-- The chain of a reachable state: linked, starting with the genesis record, every later
record made of an id, a digest and a nonce whose inline word passed the test of the commit. -/
def ChainInv (p : Params) (s : State) : Prop :=
  Linked s.tChain ∧
  (s.tChain.mem.map payload).head? = some (0, 0, 0, p.miners) ∧
  ∀ r, r ∈ (s.tChain.mem.map payload).tail → hashValue r.1 r.2.1 r.2.2.1 ≤ p.threshold

/-- With a single thread: every record after the first stores the hash of the record before
it, and while the thread works on an id its `prev_hash` is the hash of the current tail. -/
def HashInv (p : Params) (s : State) : Prop :=
  (∀ (i : Nat) (r r2 : Nat × Nat × Nat × Nat), (s.tChain.mem.map payload)[i]? = some r →
    (s.tChain.mem.map payload)[i + 1]? = some r2 → r2.2.1 = hashRecord p.uint_hash r) ∧
  (((s.thread 0).pc = Loc.search ∨ (s.thread 0).pc = Loc.penalty ∨
      (s.thread 0).pc = Loc.commit) →
    (s.thread 0).prev_hash = tailHash p.uint_hash s.tChain)

/-- The accounting of the claimed indices when the counter cannot wrap and the ids are pairwise
distinct: the counter has advanced once per claim, every index below it (and below the length
of the worklist) is either counted in some `bitcoins` or held by a busy thread, and a thread
has only processed ids at indices below the one it holds. -/
structure CountInv (p : Params) (s : State) : Prop where
  cnt_le : s.current_transaction_index ≤
    p.transaction_ids.length + ∑ tid in Finset.range p.miners, gone (s.thread tid)
  sum_eq : ∑ tid in Finset.range p.miners, ((s.thread tid).bitcoins + busy (s.thread tid)) =
    min s.current_transaction_index p.transaction_ids.length
  done_imp : ∀ tid, tid < p.miners → (s.thread tid).pc = Loc.done →
    p.transaction_ids.length ≤ s.current_transaction_index
  busy_imp : ∀ tid, tid < p.miners → busy (s.thread tid) = 1 →
    (s.thread tid).index < p.transaction_ids.length ∧
    (s.thread tid).index < s.current_transaction_index ∧
    (s.thread tid).current_id = p.transaction_ids.getD (s.thread tid).index 0 ∧
    ∀ x, x ∈ (s.thread tid).processed_transactions →
      ∃ j, j < (s.thread tid).index ∧ p.transaction_ids[j]? = some x
  idle_imp : ∀ tid, tid < p.miners → busy (s.thread tid) = 0 →
    ∀ x, x ∈ (s.thread tid).processed_transactions →
      ∃ j, j < s.current_transaction_index ∧ p.transaction_ids[j]? = some x
  len_eq : s.tChain.mem.length = 1 + ∑ tid in Finset.range p.miners, (s.thread tid).bitcoins

/-- The state after the last thread has left the loop over a worklist whose indices have all
been counted. -/
def DoneInv (p : Params) (s : State) : Prop :=
  (∀ tid, tid < p.miners → (s.thread tid).pc = Loc.done) ∧
  ∑ tid in Finset.range p.miners, (s.thread tid).bitcoins = p.transaction_ids.length ∧
  s.tChain.mem.length = p.transaction_ids.length + 1

/-! ## Words -/

theorem shl32_lt (x k : Nat) : shl32 x k < 4294967296 :=
  Nat.mod_lt _ (by norm_num)

theorem xor_lt_word {a b : Nat} (ha : a < 4294967296) (hb : b < 4294967296) :
    a ^^^ b < 4294967296 := by
  have h : (4294967296 : Nat) = 2 ^ 32 := by norm_num
  rw [h] at ha hb ⊢
  exact Nat.xor_lt_two_pow ha hb

theorem hashValue_lt (c q r : Nat) : hashValue c q r < 4294967296 :=
  xor_lt_word (xor_lt_word (shl32_lt _ _) (shl32_lt _ _)) (shl32_lt _ _)

/-- The part of the word that does not depend on the nonce is even. -/
theorem headWord_even (c q : Nat) : (shl32 c 16 ^^^ shl32 q 8) % 2 = 0 := by
  rw [Nat.xor_mod_two_eq]
  unfold shl32
  simp only [Nat.shiftLeft_eq]
  omega

/-- Half of the nonce-free part of the word is a nonce that makes the word zero. -/
theorem hashValue_half (c q : Nat) :
    hashValue c q ((shl32 c 16 ^^^ shl32 q 8) / 2) = 0 := by
  have h1 := headWord_even c q
  have h2 : shl32 c 16 ^^^ shl32 q 8 < 4294967296 := xor_lt_word (shl32_lt _ _) (shl32_lt _ _)
  have h3 : shl32 ((shl32 c 16 ^^^ shl32 q 8) / 2) 1 = shl32 c 16 ^^^ shl32 q 8 := by
    generalize shl32 c 16 ^^^ shl32 q 8 = a at h1 h2
    unfold shl32
    simp only [Nat.shiftLeft_eq]
    omega
  unfold hashValue
  rw [h3, Nat.xor_self]

theorem threshold_of_eq (d : Nat) (h1 : 1 ≤ d) (h2 : d ≤ 10) :
    threshold_of d = 2 ^ (32 - d) - 1 := by
  unfold threshold_of
  rw [Nat.shiftLeft_eq, Nat.one_mul]
  apply Nat.mod_eq_of_lt
  have : 2 ^ (32 - d) ≤ 2 ^ 32 := Nat.pow_le_pow_right (by norm_num) (by omega)
  have h32 : (2 : Nat) ^ 32 = 4294967296 := by norm_num
  have : 0 < 2 ^ (32 - d) := Nat.pow_pos (by norm_num)
  omega

theorem work_factor_eq (d : Nat) (h1 : 1 ≤ d) (h2 : d ≤ 10) : work_factor d = 10 ^ (d - 1) := by
  have h : (d + 4294967295) % 4294967296 = d - 1 := by omega
  unfold work_factor
  rw [h]

theorem hashValue_even (c q r : Nat) : hashValue c q r % 2 = 0 := by
  unfold hashValue
  rw [Nat.xor_mod_two_eq]
  have h := headWord_even c q
  have h2 : shl32 r 1 % 2 = 0 := by
    unfold shl32
    rw [Nat.shiftLeft_eq]
    omega
  omega

/-- Every even 32-bit word is the inline word of some record. -/
theorem hashValue_zero_zero (x : Nat) (hx : x < 4294967296) (he : x % 2 = 0) :
    hashValue 0 0 (x / 2) = x := by
  have h0 : shl32 0 16 = 0 := by decide
  have h1 : shl32 0 8 = 0 := by decide
  unfold hashValue
  rw [h0, h1, Nat.xor_self, Nat.zero_xor]
  unfold shl32
  rw [Nat.shiftLeft_eq]
  omega

/-- When `std::hash<unsigned int>`, converted to `unsigned int`, is the identity on the even
32-bit words, `hashTransaction` is the inline word of `mine`. -/
theorem hashTransaction_eq_hashValue (uint_hash : Nat → Nat)
    (hid : ∀ x, x < 4294967296 → x % 2 = 0 → uint_hash x % 4294967296 = x)
    (t : transaction) :
    hashTransaction uint_hash t = hashValue t.current t.prev t.rand :=
  hid _ (hashValue_lt t.current t.prev t.rand) (hashValue_even t.current t.prev t.rand)

/-- The inline word is `hashTransaction` of the record for all records exactly when
`std::hash<unsigned int>`, converted to `unsigned int`, is the identity on the even 32-bit
words. -/
theorem hashTransaction_eq_hashValue_iff (uint_hash : Nat → Nat) :
    (∀ id prevDigest nonce : Nat,
      hashTransaction uint_hash ⟨id, prevDigest, nonce, 0, none, none⟩ =
        hashValue id prevDigest nonce) ↔
      ∀ x, x < 4294967296 → x % 2 = 0 → uint_hash x % 4294967296 = x := by
  constructor
  · intro h x hx he
    have := h 0 0 (x / 2)
    have e : hashTransaction uint_hash ⟨0, 0, x / 2, 0, none, none⟩ =
        uint_hash (hashValue 0 0 (x / 2)) % 4294967296 := rfl
    rw [e, hashValue_zero_zero x hx he] at this
    exact this
  · intro h id prevDigest nonce
    exact h _ (hashValue_lt _ _ _) (hashValue_even _ _ _)

/-! ## The shared cursor -/

theorem claims_length (N : Nat) : ∀ (k c : Nat), (claims N c k).length = k
  | 0, _ => rfl
  | k + 1, c => by simp [claims, claims_length N k]

/-- The `i`-th claim reads the counter `c + i` reduced to 32 bits. -/
theorem claims_get (N : Nat) : ∀ (k c i : Nat), c < 4294967296 → i < k →
    (claims N c k)[i]? = some (claim N ((c + i) % 4294967296)).1
  | 0, _, _, _, h => absurd h (Nat.not_lt_zero _)
  | k + 1, c, 0, hc, _ => by
    simp [claims, Nat.mod_eq_of_lt hc]
  | k + 1, c, i + 1, _, h => by
    have ih := claims_get N k ((c + 1) % 4294967296) i (Nat.mod_lt _ (by norm_num))
      (Nat.lt_of_succ_lt_succ h)
    have e : ((c + 1) % 4294967296 + i) % 4294967296 = (c + (i + 1)) % 4294967296 := by omega
    rw [e] at ih
    simpa [claims, claim] using ih

theorem toSizeT_strictMono {a b : Nat} (h : a < b) : toSizeT a < toSizeT b := by
  unfold toSizeT
  split <;> split <;> omega

/-- While the claims do not outnumber the values of the counter, claim number `i` reads `i`. -/
theorem claims_get_zero (N k : Nat) (hk : k ≤ 4294967296) (i : Nat) (hi : i < k) :
    (claims N 0 k)[i]? = some (claim N i).1 := by
  have h := claims_get N k 0 i (by norm_num) hi
  rwa [Nat.zero_add, Nat.mod_eq_of_lt (by omega)] at h

theorem claims_bound (N k i : Nat) (r : Option Nat) (h : (claims N 0 k)[i]? = some r) :
    i < k := by
  have := (List.getElem?_eq_some_iff.mp h).1
  rwa [claims_length] at this

/-- The properties of the work distributor for at most `2^32` claims from counter 0. -/
theorem claims_sound (N k : Nat) (hk : k ≤ 4294967296) :
    (∀ i index : Nat, (claims N 0 k)[i]? = some (some index) → index < N) ∧
    (∀ i j a b : Nat, i < j → (claims N 0 k)[i]? = some (some a) →
      (claims N 0 k)[j]? = some (some b) → a ≠ b) ∧
    (∀ i j : Nat, i < j → j < k → (claims N 0 k)[i]? = some none →
      (claims N 0 k)[j]? = some none) := by
  refine ⟨?_, ?_, ?_⟩
  · intro i index h
    rw [claims_get_zero N k hk i (claims_bound N k i _ h)] at h
    simp only [claim, Option.some.injEq] at h
    split at h
    · cases h
    · cases h; omega
  · intro i j a b hij hi hj
    have hjk := claims_bound N k j _ hj
    rw [claims_get_zero N k hk i (by omega)] at hi
    rw [claims_get_zero N k hk j hjk] at hj
    simp only [claim, Option.some.injEq] at hi hj
    have := toSizeT_strictMono hij
    split at hi <;> split at hj <;> simp at hi hj
    omega
  · intro i j hij hjk hi
    rw [claims_get_zero N k hk i (by omega)] at hi
    rw [claims_get_zero N k hk j hjk]
    simp only [claim, Option.some.injEq] at hi ⊢
    have := toSizeT_strictMono hij
    split at hi
    · rw [if_pos (by omega)]
    · cases hi

/-- For a worklist length that a vector can have, the index returned by a successful claim is
a non-negative `int`, the number of the claim. -/
theorem claims_index (N k : Nat) (hk : k ≤ 4294967296) (hN : N ≤ 18446744071562067968)
    (i index : Nat) (h : (claims N 0 k)[i]? = some (some index)) :
    index = i ∧ index < 2147483648 := by
  rw [claims_get_zero N k hk i (claims_bound N k i _ h)] at h
  simp only [claim, Option.some.injEq] at h
  split at h
  · cases h
  · rename_i hlt
    simp only [Option.some.injEq] at h
    unfold toSizeT at h hlt
    split at h <;> split at hlt <;> omega

/-! ## The chain -/

theorem setNext_length (mem : List transaction) (a : Nat) (v : Option Nat) :
    (setNext mem a v).length = mem.length := by
  unfold setNext
  split <;> simp

theorem setPrevious_length (mem : List transaction) (a : Nat) (v : Option Nat) :
    (setPrevious mem a v).length = mem.length := by
  unfold setPrevious
  split <;> simp

theorem setNext_getElem? (mem : List transaction) (a : Nat) (v : Option Nat) (i : Nat) :
    (setNext mem a v)[i]? =
      if i = a then (mem[i]?).map (fun t => { t with next := v }) else mem[i]? := by
  unfold setNext
  by_cases h : i = a
  · subst h
    rw [if_pos rfl]
    cases hm : mem[i]? with
    | none => simp [hm]
    | some t =>
      have hlt := (List.getElem?_eq_some_iff.mp hm).1
      simp [List.getElem?_set, hlt]
  · rw [if_neg h]
    cases hm : mem[a]? with
    | none => rfl
    | some t => simp [List.getElem?_set, Ne.symm h]

theorem setPrevious_getElem? (mem : List transaction) (a : Nat) (v : Option Nat) (i : Nat) :
    (setPrevious mem a v)[i]? =
      if i = a then (mem[i]?).map (fun t => { t with previous := v }) else mem[i]? := by
  unfold setPrevious
  by_cases h : i = a
  · subst h
    rw [if_pos rfl]
    cases hm : mem[i]? with
    | none => simp [hm]
    | some t =>
      have hlt := (List.getElem?_eq_some_iff.mp hm).1
      simp [List.getElem?_set, hlt]
  · rw [if_neg h]
    cases hm : mem[a]? with
    | none => rfl
    | some t => simp [List.getElem?_set, Ne.symm h]

theorem linked_empty : Linked transactionChain.empty := by
  refine ⟨rfl, rfl, ?_⟩
  intro i t h
  simp [transactionChain.empty] at h

theorem addNew_length (tc : transactionChain) (hL : Linked tc) (c q r id : Nat) :
    (tc.addNew c q r id).mem.length = tc.mem.length + 1 := by
  obtain ⟨hh, ht, _⟩ := hL
  unfold transactionChain.addNew transactionChain.add transactionChain.alloc
  by_cases h0 : tc.mem.length = 0
  · simp [hh, h0]
  · simp [hh, ht, h0, setNext_length, setPrevious_length]

/-- The store after `new` and `add` on a linked chain: the old tail gets its `next`, the new
record gets its `previous`, the other records are untouched. -/
theorem addNew_getElem? (tc : transactionChain) (hL : Linked tc) (c q r id i : Nat) :
    (tc.addNew c q r id).mem[i]? =
      if i + 1 = tc.mem.length then
        (tc.mem[i]?).map (fun t => { t with next := some tc.mem.length })
      else if i = tc.mem.length then
        some ⟨c, q, r, id, none, if tc.mem.length = 0 then none else some (tc.mem.length - 1)⟩
      else tc.mem[i]? := by
  obtain ⟨hh, ht, _⟩ := hL
  unfold transactionChain.addNew transactionChain.add transactionChain.alloc
  by_cases h0 : tc.mem.length = 0
  · have hnil : tc.mem = [] := List.length_eq_zero.mp h0
    simp only [hh, ht, h0, hnil]
    by_cases hi : i = 0
    · subst hi; simp
    · have : 1 ≤ i := by omega
      simp [hi, this]
  · simp only [hh, ht, h0, if_false]
    rw [setPrevious_getElem?, setNext_getElem?]
    by_cases h1 : i + 1 = tc.mem.length
    · have hne : i ≠ tc.mem.length := by omega
      have hi : i = tc.mem.length - 1 := by omega
      rw [if_neg hne, if_pos hi, if_pos h1, List.getElem?_append_left (by omega)]
    · rw [if_neg h1]
      by_cases h2 : i = tc.mem.length
      · have hne : i ≠ tc.mem.length - 1 := by omega
        rw [if_pos h2, if_pos h2, if_neg hne]
        subst h2
        simp
      · have hne : i ≠ tc.mem.length - 1 := by omega
        rw [if_neg h2, if_neg h2, if_neg hne]
        by_cases h3 : i < tc.mem.length
        · rw [List.getElem?_append_left h3]
        · rw [List.getElem?_eq_none (by simp; omega), List.getElem?_eq_none (by omega)]

theorem addNew_head_tail (tc : transactionChain) (hL : Linked tc) (c q r id : Nat) :
    (tc.addNew c q r id).head = some 0 ∧ (tc.addNew c q r id).tail = some tc.mem.length := by
  obtain ⟨hh, ht, _⟩ := hL
  unfold transactionChain.addNew transactionChain.add transactionChain.alloc
  by_cases h0 : tc.mem.length = 0
  · simp [hh, h0]
  · simp [hh, ht, h0]

theorem addNew_linked (tc : transactionChain) (hL : Linked tc) (c q r id : Nat) :
    Linked (tc.addNew c q r id) := by
  have hlen := addNew_length tc hL c q r id
  have hht := addNew_head_tail tc hL c q r id
  refine ⟨?_, ?_, ?_⟩
  · rw [hht.1, if_neg (by omega)]
  · rw [hht.2, if_neg (by omega), hlen]; rfl
  · intro i t hget
    rw [addNew_getElem? tc hL] at hget
    rw [hlen]
    obtain ⟨_, _, hl⟩ := hL
    by_cases h1 : i + 1 = tc.mem.length
    · rw [if_pos h1] at hget
      cases hm : tc.mem[i]? with
      | none => simp [hm] at hget
      | some u =>
        simp only [hm, Option.map_some', Option.some.injEq] at hget
        subst hget
        have := (hl i u hm).2
        exact ⟨by simp [h1], this⟩
    · rw [if_neg h1] at hget
      by_cases h2 : i = tc.mem.length
      · rw [if_pos h2] at hget
        simp only [Option.some.injEq] at hget
        subst hget
        subst h2
        by_cases h0 : tc.mem.length = 0
        · simp [h0]
        · simp [h0]
      · rw [if_neg h2] at hget
        have hlt := (List.getElem?_eq_some_iff.mp hget).1
        have := hl i t hget
        refine ⟨?_, this.2⟩
        rw [this.1, if_pos (by omega), if_pos (by omega)]

theorem addNew_payload (tc : transactionChain) (hL : Linked tc) (c q r id : Nat) :
    (tc.addNew c q r id).mem.map payload = tc.mem.map payload ++ [(c, q, r, id)] := by
  apply List.ext_getElem?
  intro i
  rw [List.getElem?_map, addNew_getElem? tc hL]
  by_cases h1 : i + 1 = tc.mem.length
  · rw [if_pos h1, List.getElem?_append_left (by simp; omega), List.getElem?_map]
    cases tc.mem[i]? <;> rfl
  · rw [if_neg h1]
    by_cases h2 : i = tc.mem.length
    · rw [if_pos h2, List.getElem?_append_right (by simp; omega)]
      subst h2
      simp [payload]
    · rw [if_neg h2]
      by_cases h3 : i < tc.mem.length
      · rw [List.getElem?_append_left (by simpa using h3), List.getElem?_map]
      · rw [List.getElem?_eq_none (by omega), List.getElem?_eq_none (by simp; omega)]
        rfl

/-! ## The validator -/

/-- The loop of the validator returns `true` exactly when the forward traversal ends and every
record met passes both checks. -/
theorem validatorLoop_true_iff (uint_hash : Nat → Nat) (mem : List transaction) (threshold : Nat) :
    ∀ (fuel : Nat) (current previous : Option Nat),
      validatorLoop uint_hash mem threshold fuel current previous = some true ↔
        ∃ l, forward mem fuel current = some l ∧ linksOk uint_hash mem threshold previous l := by
  intro fuel
  induction fuel with
  | zero =>
    intro current previous
    cases current with
    | none => simp [validatorLoop, forward, linksOk]
    | some a => simp [validatorLoop, forward]
  | succ fuel ih =>
    intro current previous
    cases current with
    | none => simp [validatorLoop, forward, linksOk]
    | some a =>
      cases hm : mem[a]? with
      | none => simp [validatorLoop, forward, hm]
      | some t =>
        simp only [validatorLoop, forward, hm]
        by_cases h1 : hashTransaction uint_hash t > threshold
        · rw [if_pos h1]
          constructor
          · intro h; cases h
          · rintro ⟨l, hl, hok⟩
            cases hf : forward mem fuel t.next with
            | none => simp [hf] at hl
            | some l2 =>
              simp only [hf, Option.map_some', Option.some.injEq] at hl
              subst hl
              obtain ⟨⟨u, hu, hle, _⟩, _⟩ := hok
              rw [hm] at hu
              cases hu
              omega
        · rw [if_neg h1]
          by_cases h2 : t.previous ≠ previous
          · rw [if_pos h2]
            constructor
            · intro h; cases h
            · rintro ⟨l, hl, hok⟩
              cases hf : forward mem fuel t.next with
              | none => simp [hf] at hl
              | some l2 =>
                simp only [hf, Option.map_some', Option.some.injEq] at hl
                subst hl
                obtain ⟨⟨u, hu, _, hp⟩, _⟩ := hok
                rw [hm] at hu
                cases hu
                exact absurd hp h2
          · rw [if_neg h2, ih]
            have h2 : t.previous = previous := not_not.mp h2
            constructor
            · rintro ⟨l, hl, hok⟩
              exact ⟨a :: l, by simp [hl], ⟨t, hm, by omega, h2⟩, hok⟩
            · rintro ⟨l, hl, hok⟩
              cases hf : forward mem fuel t.next with
              | none => simp [hf] at hl
              | some l2 =>
                simp only [hf, Option.map_some', Option.some.injEq] at hl
                subst hl
                exact ⟨l2, rfl, hok.2⟩

/-- On a chain whose forward traversal ends, the loop of the validator returns. -/
theorem validatorLoop_total (uint_hash : Nat → Nat) (mem : List transaction) (threshold : Nat) :
    ∀ (fuel : Nat) (current previous : Option Nat) (l : List Nat),
      forward mem fuel current = some l →
        ∃ b, validatorLoop uint_hash mem threshold fuel current previous = some b := by
  intro fuel
  induction fuel with
  | zero =>
    intro current previous l hl
    cases current with
    | none => exact ⟨true, by simp [validatorLoop]⟩
    | some a => simp [forward] at hl
  | succ fuel ih =>
    intro current previous l hl
    cases current with
    | none => exact ⟨true, by simp [validatorLoop]⟩
    | some a =>
      cases hm : mem[a]? with
      | none => simp [forward, hm] at hl
      | some t =>
        simp only [forward, hm] at hl
        simp only [validatorLoop, hm]
        cases hf : forward mem fuel t.next with
        | none => simp [hf] at hl
        | some l2 =>
          split
          · exact ⟨false, rfl⟩
          · split
            · exact ⟨false, rfl⟩
            · exact ih _ _ l2 hf

theorem allBelow_cons (uint_hash : Nat → Nat) (threshold : Nat) (t : transaction)
    (l : List transaction) :
    allBelow uint_hash threshold (t :: l) =
      (decide (hashTransaction uint_hash t ≤ threshold) && allBelow uint_hash threshold l) := rfl

theorem linked_getElem (tc : transactionChain) (hL : Linked tc) (i : Nat)
    (hi : i < tc.mem.length) :
    (tc.mem[i]).next = (if i + 1 < tc.mem.length then some (i + 1) else none) ∧
      (tc.mem[i]).previous = (if i = 0 then none else some (i - 1)) :=
  hL.2.2 i _ (List.getElem?_eq_getElem hi)

/-- On a linked chain the loop started at record `i` checks the hashes of the records from
`i` on and nothing else. -/
theorem validatorLoop_linked (uint_hash : Nat → Nat) (tc : transactionChain) (threshold : Nat)
    (hL : Linked tc) :
    ∀ (fuel i : Nat), 1 ≤ i → i ≤ tc.mem.length → tc.mem.length ≤ i + fuel →
      validatorLoop uint_hash tc.mem threshold fuel
          (if i < tc.mem.length then some i else none) (some (i - 1)) =
        some (allBelow uint_hash threshold (tc.mem.drop i)) := by
  intro fuel
  induction fuel with
  | zero =>
    intro i _ h2 h3
    have : i = tc.mem.length := by omega
    subst this
    simp [validatorLoop, allBelow]
  | succ fuel ih =>
    intro i h1 h2 h3
    by_cases hi : i < tc.mem.length
    · rw [if_pos hi]
      have hl := linked_getElem tc hL i hi
      simp only [validatorLoop, List.getElem?_eq_getElem hi]
      rw [List.drop_eq_getElem_cons hi, allBelow_cons]
      have hprev : (tc.mem[i]).previous = some (i - 1) := by
        rw [hl.2, if_neg (by omega)]
      by_cases hh : hashTransaction uint_hash tc.mem[i] > threshold
      · rw [if_pos hh, decide_eq_false (by omega)]
        rfl
      · rw [if_neg hh, if_neg (by simp [hprev]), hl.1]
        have := ih (i + 1) (by omega) (by omega) (by omega)
        rw [Nat.add_sub_cancel] at this
        rw [this, decide_eq_true (by omega)]
        rfl
    · have : i = tc.mem.length := by omega
      subst this
      simp [validatorLoop, allBelow]

/-- On a linked chain the validator returns, and its verdict is that all records after the
first have a hash within the threshold. -/
theorem validator_linked (uint_hash : Nat → Nat) (tc : transactionChain) (threshold : Nat)
    (hL : Linked tc) :
    transactionValidator uint_hash tc threshold =
      some (allBelow uint_hash threshold (tc.mem.drop 1)) := by
  unfold transactionValidator
  by_cases h0 : tc.mem.length = 0
  · have hnil : tc.mem = [] := List.length_eq_zero.mp h0
    rw [hL.1, if_pos h0]
    simp [hnil, allBelow]
  · have hpos : 0 < tc.mem.length := Nat.pos_of_ne_zero h0
    rw [hL.1, if_neg h0]
    simp only [List.getElem?_eq_getElem hpos]
    have hl := linked_getElem tc hL 0 hpos
    rw [hl.1]
    exact validatorLoop_linked uint_hash tc threshold hL tc.mem.length 1 (by omega) (by omega)
      (by omega)

theorem forward_linked (tc : transactionChain) (hL : Linked tc) :
    ∀ (fuel i : Nat), i ≤ tc.mem.length → tc.mem.length ≤ i + fuel →
      forward tc.mem fuel (if i < tc.mem.length then some i else none) =
        some (List.range' i (tc.mem.length - i)) := by
  intro fuel
  induction fuel with
  | zero =>
    intro i h2 h3
    have : i = tc.mem.length := by omega
    subst this
    simp [forward]
  | succ fuel ih =>
    intro i h2 h3
    by_cases hi : i < tc.mem.length
    · rw [if_pos hi]
      have hl := linked_getElem tc hL i hi
      simp only [forward, List.getElem?_eq_getElem hi]
      rw [hl.1, ih (i + 1) (by omega) (by omega)]
      have : tc.mem.length - i = (tc.mem.length - (i + 1)) + 1 := by omega
      rw [this, List.range'_succ]
      rfl
    · have : i = tc.mem.length := by omega
      subst this
      simp [forward]

/-- The forward traversal of a linked chain visits the records in the order of the store. -/
theorem traversal_linked (tc : transactionChain) (hL : Linked tc) :
    traversal tc = some (List.range tc.mem.length) := by
  unfold traversal
  rw [hL.1]
  have := forward_linked tc hL (tc.mem.length + 1) 0 (by omega) (by omega)
  rw [List.range_eq_range']
  by_cases h0 : tc.mem.length = 0
  · rw [if_pos h0]
    simp [forward, h0]
  · rw [if_neg h0]
    rw [if_pos (by omega)] at this
    simpa using this

theorem buildChain_concat (recs : List (Nat × Nat × Nat × Nat)) (r : Nat × Nat × Nat × Nat) :
    buildChain (recs ++ [r]) = (buildChain recs).addNew r.1 r.2.1 r.2.2.1 r.2.2.2 := by
  simp [buildChain, List.foldl_append]

theorem buildChain_linked (recs : List (Nat × Nat × Nat × Nat)) :
    Linked (buildChain recs) ∧ (buildChain recs).mem.map payload = recs := by
  induction recs using List.reverseRecOn with
  | nil => exact ⟨linked_empty, rfl⟩
  | append_singleton recs r ih =>
    rw [buildChain_concat]
    exact ⟨addNew_linked _ ih.1 _ _ _ _, by rw [addNew_payload _ ih.1, ih.2]⟩

/-! ## The fuel of the traversal -/

/-- Two traversals from the same pointer that both end give the same list. -/
theorem forward_det (mem : List transaction) :
    ∀ (f1 f2 : Nat) (c : Option Nat) (l1 l2 : List Nat),
      forward mem f1 c = some l1 → forward mem f2 c = some l2 → l1 = l2 := by
  intro f1
  induction f1 with
  | zero =>
    intro f2 c l1 l2 h1 h2
    cases c with
    | none =>
      cases f2 <;> simp [forward] at h1 h2 <;> rw [h1, h2]
    | some a => simp [forward] at h1
  | succ f1 ih =>
    intro f2 c l1 l2 h1 h2
    cases c with
    | none =>
      cases f2 <;> simp [forward] at h1 h2 <;> rw [h1, h2]
    | some a =>
      cases f2 with
      | zero => simp [forward] at h2
      | succ f2 =>
        cases hm : mem[a]? with
        | none => simp [forward, hm] at h1
        | some t =>
          simp only [forward, hm] at h1 h2
          cases hf1 : forward mem f1 t.next with
          | none => simp [hf1] at h1
          | some r1 =>
            cases hf2 : forward mem f2 t.next with
            | none => simp [hf2] at h2
            | some r2 =>
              simp only [hf1, hf2, Option.map_some', Option.some.injEq] at h1 h2
              rw [← h1, ← h2, ih f2 t.next r1 r2 hf1 hf2]

/-- A traversal that ends also ends with any fuel that covers its length. -/
theorem forward_fuel (mem : List transaction) :
    ∀ (f1 f2 : Nat) (c : Option Nat) (l : List Nat),
      forward mem f1 c = some l → l.length ≤ f2 → forward mem f2 c = some l := by
  intro f1
  induction f1 with
  | zero =>
    intro f2 c l h1 _
    cases c with
    | none =>
      simp only [forward, Option.some.injEq] at h1
      subst h1
      cases f2 <;> simp [forward]
    | some a => simp [forward] at h1
  | succ f1 ih =>
    intro f2 c l h1 hlen
    cases c with
    | none =>
      simp only [forward, Option.some.injEq] at h1
      subst h1
      cases f2 <;> simp [forward]
    | some a =>
      cases hm : mem[a]? with
      | none => simp [forward, hm] at h1
      | some t =>
        simp only [forward, hm] at h1
        cases hf1 : forward mem f1 t.next with
        | none => simp [hf1] at h1
        | some r1 =>
          simp only [hf1, Option.map_some', Option.some.injEq] at h1
          subst h1
          cases f2 with
          | zero => simp at hlen
          | succ f2 =>
            simp only [forward, hm]
            rw [ih f2 t.next r1 hf1 (by simpa using hlen)]
            rfl

/-- Every pointer met by a traversal that ends is in the store and starts a traversal that
ends with the rest of the list. -/
theorem forward_suffix (mem : List transaction) :
    ∀ (f : Nat) (c : Option Nat) (l : List Nat), forward mem f c = some l →
      ∀ (i : Nat) (a : Nat), l[i]? = some a →
        a < mem.length ∧ ∃ f2, forward mem f2 (some a) = some (l.drop i) := by
  intro f
  induction f with
  | zero =>
    intro c l h i a hi
    cases c with
    | none =>
      simp only [forward, Option.some.injEq] at h
      subst h
      simp at hi
    | some b => simp [forward] at h
  | succ f ih =>
    intro c l h i a hi
    cases c with
    | none =>
      simp only [forward, Option.some.injEq] at h
      subst h
      simp at hi
    | some b =>
      cases hm : mem[b]? with
      | none => simp [forward, hm] at h
      | some t =>
        have h0 := h
        simp only [forward, hm] at h
        cases hf : forward mem f t.next with
        | none => simp [hf] at h
        | some r =>
          simp only [hf, Option.map_some', Option.some.injEq] at h
          subst h
          cases i with
          | zero =>
            simp only [List.getElem?_cons_zero, Option.some.injEq] at hi
            subst hi
            exact ⟨(List.getElem?_eq_some_iff.mp hm).1, f + 1, h0⟩
          | succ i =>
            simp only [List.getElem?_cons_succ] at hi
            simpa using ih t.next r hf i a hi

/-- A traversal that ends meets no record twice. -/
theorem forward_nodup (mem : List transaction) :
    ∀ (f : Nat) (c : Option Nat) (l : List Nat), forward mem f c = some l → l.Nodup := by
  intro f
  induction f with
  | zero =>
    intro c l h
    cases c with
    | none =>
      simp only [forward, Option.some.injEq] at h
      subst h
      exact List.nodup_nil
    | some b => simp [forward] at h
  | succ f ih =>
    intro c l h
    cases c with
    | none =>
      simp only [forward, Option.some.injEq] at h
      subst h
      exact List.nodup_nil
    | some b =>
      cases hm : mem[b]? with
      | none => simp [forward, hm] at h
      | some t =>
        have h0 := h
        simp only [forward, hm] at h
        cases hf : forward mem f t.next with
        | none => simp [hf] at h
        | some r =>
          simp only [hf, Option.map_some', Option.some.injEq] at h
          subst h
          refine List.nodup_cons.mpr ⟨?_, ih t.next r hf⟩
          intro hb
          obtain ⟨i, hi⟩ := List.mem_iff_getElem?.mp hb
          obtain ⟨_, f2, hf2⟩ := forward_suffix mem f t.next r hf i b hi
          have heq := forward_det mem (f + 1) f2 (some b) _ _ h0 hf2
          have hlen := congrArg List.length heq
          simp only [List.length_cons, List.length_drop] at hlen
          omega

/-- A traversal that ends is no longer than the store. -/
theorem forward_length_le (mem : List transaction) (f : Nat) (c : Option Nat) (l : List Nat)
    (h : forward mem f c = some l) : l.length ≤ mem.length := by
  have hnd := forward_nodup mem f c l h
  have hsub : l.toFinset ⊆ Finset.range mem.length := by
    intro a ha
    rw [List.mem_toFinset] at ha
    obtain ⟨i, hi⟩ := List.mem_iff_getElem?.mp ha
    exact Finset.mem_range.mpr (forward_suffix mem f c l h i a hi).1
  have hcard := Finset.card_le_card hsub
  rwa [List.toFinset_card_of_nodup hnd, Finset.card_range] at hcard

/-- Whatever fuel makes the traversal of a chain end, the fuel the validator gives itself is
enough. -/
theorem traversal_of_forward (tc : transactionChain) (f : Nat) (l : List Nat)
    (h : forward tc.mem f tc.head = some l) : traversal tc = some l :=
  forward_fuel tc.mem f (tc.mem.length + 1) tc.head l h
    (Nat.le_succ_of_le (forward_length_le tc.mem f tc.head l h))

/-! ## Runs -/

theorem run_nil (p : Params) (s : State) : run p [] s = s := rfl

theorem run_cons (p : Params) (tid : Nat) (schedule : List Nat) (s : State) :
    run p (tid :: schedule) s = run p schedule (mineStep p s tid) := rfl

theorem run_append (p : Params) (l1 l2 : List Nat) (s : State) :
    run p (l1 ++ l2) s = run p l2 (run p l1 s) := by
  simp [run, List.foldl_append]

/-- A property that holds initially and is kept by every step holds after every run. -/
theorem run_induction (p : Params) (P : State → Prop) (h0 : P (init p))
    (hstep : ∀ s tid, P s → P (mineStep p s tid)) (schedule : List Nat) :
    P (run p schedule (init p)) := by
  have gen : ∀ (l : List Nat) (s : State), P s → P (run p l s) := by
    intro l
    induction l with
    | nil => intro s hs; exact hs
    | cons tid l ih => intro s hs; exact ih _ (hstep s tid hs)
  exact gen schedule _ h0

/-- A step leaves the chain as it is, unless it is a commit that passed both tests, which adds
one fresh record made of the locals of the thread. -/
theorem mineStep_chain (p : Params) (s : State) (tid : Nat) :
    (mineStep p s tid).tChain = s.tChain ∨
      (tid < p.miners ∧ (s.thread tid).pc = Loc.commit ∧
        hashValue (s.thread tid).current_id (s.thread tid).prev_hash
          (s.thread tid).random_value ≤ p.threshold ∧
        (mineStep p s tid).tChain =
          s.tChain.addNew (s.thread tid).current_id (s.thread tid).prev_hash
            (s.thread tid).random_value tid) := by
  unfold mineStep
  by_cases htid : tid < p.miners
  · rw [if_pos htid]
    cases hpc : (s.thread tid).pc with
    | claim =>
      left
      simp only [stepClaim]
      split <;> rfl
    | readTail => left; rfl
    | search =>
      left
      simp only [stepSearch]
      split <;> rfl
    | penalty =>
      left
      simp only [stepPenalty]
      split <;> rfl
    | commit =>
      simp only [stepCommit]
      by_cases h1 : hashValue (s.thread tid).current_id (s.thread tid).prev_hash
          (s.thread tid).random_value > p.threshold
      · left; rw [if_pos h1]
      · rw [if_neg h1]
        by_cases h2 : (s.thread tid).current_id ∈ (s.thread tid).processed_transactions
        · left; rw [if_pos h2]
        · right
          rw [if_neg h2]
          exact ⟨htid, trivial, by omega, rfl⟩
    | done => left; rfl
  · left; rw [if_neg htid]

theorem init_linked (p : Params) : Linked (init p).tChain :=
  addNew_linked _ linked_empty _ _ _ _

theorem init_records (p : Params) : (init p).tChain.mem.map payload = [(0, 0, 0, p.miners)] := by
  have := addNew_payload transactionChain.empty linked_empty 0 0 0 p.miners
  simpa [init, transactionChain.empty] using this

theorem chainInv_init (p : Params) : ChainInv p (init p) := by
  refine ⟨init_linked p, ?_, ?_⟩
  · rw [init_records]; rfl
  · rw [init_records]; intro r hr; simp at hr

theorem chainInv_step (p : Params) (s : State) (tid : Nat) (h : ChainInv p s) :
    ChainInv p (mineStep p s tid) := by
  rcases mineStep_chain p s tid with he | ⟨_, _, hle, he⟩
  · unfold ChainInv; rw [he]; exact h
  · obtain ⟨hL, hg, hw⟩ := h
    unfold ChainInv
    rw [he, addNew_payload _ hL]
    refine ⟨addNew_linked _ hL _ _ _ _, ?_, ?_⟩
    · cases hm : s.tChain.mem.map payload with
      | nil => rw [hm] at hg; cases hg
      | cons a l => rw [hm] at hg; simpa using hg
    · intro r hr
      cases hm : s.tChain.mem.map payload with
      | nil => rw [hm] at hg; cases hg
      | cons a l =>
        rw [hm] at hr hw
        simp only [List.cons_append, List.tail_cons, List.mem_append, List.mem_singleton] at hr hw
        rcases hr with hr | hr
        · exact hw r hr
        · subst hr; exact hle

theorem chainInv_run (p : Params) (schedule : List Nat) : ChainInv p (run p schedule (init p)) :=
  run_induction p (ChainInv p) (chainInv_init p) (chainInv_step p) schedule

/-! ## A single thread: the stored digests -/

theorem hashTransaction_eq_hashRecord (uint_hash : Nat → Nat) (t : transaction) :
    hashTransaction uint_hash t = hashRecord uint_hash (payload t) := rfl

theorem tailHash_linked (uint_hash : Nat → Nat) (tc : transactionChain) (hL : Linked tc)
    (r : Nat × Nat × Nat × Nat)
    (hr : (tc.mem.map payload)[tc.mem.length - 1]? = some r) :
    tailHash uint_hash tc = hashRecord uint_hash r := by
  rw [List.getElem?_map] at hr
  cases hm : tc.mem[tc.mem.length - 1]? with
  | none => simp [hm] at hr
  | some t =>
    simp only [hm, Option.map_some', Option.some.injEq] at hr
    have hlt := (List.getElem?_eq_some_iff.mp hm).1
    unfold tailHash
    rw [hL.2.1, if_neg (by omega)]
    simp only [hm]
    rw [hashTransaction_eq_hashRecord, hr]

theorem hashInv_init (p : Params) : HashInv p (init p) := by
  refine ⟨?_, ?_⟩
  · intro i r r2 _ h2
    rw [init_records] at h2
    simp at h2
  · intro h
    simp [init] at h

theorem hashInv_step (p : Params) (hW : p.miners = 1) (s : State) (tid : Nat)
    (hc : ChainInv p s) (h : HashInv p s) : HashInv p (mineStep p s tid) := by
  obtain ⟨hlink, hread⟩ := h
  unfold mineStep
  by_cases htid : tid < p.miners
  · have h0 : tid = 0 := by omega
    subst h0
    rw [if_pos htid]
    cases hpc : (s.thread 0).pc with
    | claim =>
      simp only [stepClaim]
      split
      · exact ⟨hlink, by simp⟩
      · exact ⟨hlink, by simp⟩
    | readTail =>
      exact ⟨hlink, by simp [stepReadTail]⟩
    | search =>
      have := hread (Or.inl hpc)
      simp only [stepSearch]
      split
      · exact ⟨hlink, by simpa using this⟩
      · exact ⟨hlink, by simp [hpc, this]⟩
    | penalty =>
      have := hread (Or.inr (Or.inl hpc))
      simp only [stepPenalty]
      split
      · exact ⟨hlink, by simp [hpc, this]⟩
      · exact ⟨hlink, by simpa using this⟩
    | commit =>
      have hp := hread (Or.inr (Or.inr hpc))
      simp only [stepCommit]
      split
      · exact ⟨hlink, by simpa using hp⟩
      · split
        · exact ⟨hlink, by simp⟩
        · refine ⟨?_, by simp⟩
          simp only
          rw [addNew_payload _ hc.1]
          intro i r r2 h1 h2
          have hlen : (s.tChain.mem.map payload).length = s.tChain.mem.length := by simp
          by_cases hi : i + 1 < s.tChain.mem.length
          · rw [List.getElem?_append_left (by omega)] at h1 h2
            exact hlink i r r2 h1 h2
          · by_cases hi2 : i + 1 = s.tChain.mem.length
            · rw [List.getElem?_append_left (by omega)] at h1
              rw [List.getElem?_append_right (by omega)] at h2
              have hz : i + 1 - (s.tChain.mem.map payload).length = 0 := by omega
              rw [hz] at h2
              simp only [List.getElem?_cons_zero, Option.some.injEq] at h2
              subst h2
              simp only
              rw [hp]
              apply tailHash_linked _ _ hc.1
              have : s.tChain.mem.length - 1 = i := by omega
              rw [this]
              exact h1
            · have := (List.getElem?_eq_some_iff.mp h2).1
              simp at this
              omega
    | done => exact ⟨hlink, hread⟩
  · rw [if_neg htid]
    exact ⟨hlink, hread⟩

theorem hashInv_run (p : Params) (hW : p.miners = 1) (schedule : List Nat) :
    ChainInv p (run p schedule (init p)) ∧ HashInv p (run p schedule (init p)) :=
  run_induction p (fun s => ChainInv p s ∧ HashInv p s) ⟨chainInv_init p, hashInv_init p⟩
    (fun s tid h => ⟨chainInv_step p s tid h.1, hashInv_step p hW s tid h.1 h.2⟩) schedule

/-! ## Accounting of the claimed indices -/

/-- Replacing the state of one thread changes a sum over the threads by the difference of the
two summands. -/
theorem sum_update (W tid : Nat) (h : tid < W) (g : MinerState → Nat) (th : Nat → MinerState)
    (m : MinerState) :
    ∑ x in Finset.range W, g (Function.update th tid m x) + g (th tid) =
      ∑ x in Finset.range W, g (th x) + g m := by
  have hmem : tid ∈ Finset.range W := Finset.mem_range.mpr h
  rw [← Finset.add_sum_erase _ _ hmem, ← Finset.add_sum_erase _ (fun x => g (th x)) hmem]
  have hrest : ∑ x in (Finset.range W).erase tid, g (Function.update th tid m x) =
      ∑ x in (Finset.range W).erase tid, g (th x) := by
    apply Finset.sum_congr rfl
    intro x hx
    rw [Function.update_noteq (Finset.ne_of_mem_erase hx)]
  rw [hrest, Function.update_same]
  omega

theorem sum_gone_le (W : Nat) (th : Nat → MinerState) :
    ∑ x in Finset.range W, gone (th x) ≤ W := by
  have : ∀ x ∈ Finset.range W, gone (th x) ≤ 1 := by
    intro x _
    unfold gone
    split <;> omega
  calc ∑ x in Finset.range W, gone (th x) ≤ ∑ _x in Finset.range W, 1 := Finset.sum_le_sum this
    _ = W := by simp

theorem term_le_sum (W tid : Nat) (h : tid < W) (g : Nat → Nat) :
    g tid ≤ ∑ x in Finset.range W, g x :=
  Finset.single_le_sum (fun _ _ => Nat.zero_le _) (Finset.mem_range.mpr h)

/-- A counter that is a non-negative `int` below the length of the worklist is claimed. -/
theorem claim_small (N c : Nat) (hc1 : c < 2147483648) (hc : c < N) :
    claim N c = (some c, c + 1) := by
  have h1 : toSizeT c = c := by
    unfold toSizeT
    rw [if_pos hc1]
  unfold claim
  rw [h1, if_neg (by omega), Nat.mod_eq_of_lt (by omega)]

/-- A counter that, seen as a `size_t`, is not below the length of the worklist ends the
loop. -/
theorem claim_large (N c : Nat) (hc : N ≤ toSizeT c) (hc2 : c + 1 < 4294967296) :
    claim N c = (none, c + 1) := by
  unfold claim
  rw [if_pos hc, Nat.mod_eq_of_lt hc2]

theorem claim_exhausted (N c : Nat) (hc : N ≤ toSizeT c) :
    claim N c = (none, (c + 1) % 4294967296) := by
  unfold claim
  rw [if_pos hc]

theorem le_toSizeT (c : Nat) : c ≤ toSizeT c := by
  unfold toSizeT
  split <;> omega

theorem countInv_init (p : Params) : CountInv p (init p) where
  cnt_le := Nat.zero_le _
  sum_eq := by simp [init, busy]
  done_imp := by intro tid _ h; simp [init] at h
  busy_imp := by intro tid _ h; simp [init, busy] at h
  idle_imp := by intro tid _ _ x hx; simp [init] at hx
  len_eq := by
    have h1 := addNew_length transactionChain.empty linked_empty 0 0 0 p.miners
    have h2 : ∑ tid in Finset.range p.miners, ((init p).thread tid).bitcoins = 0 := by
      simp [init]
    rw [h2]
    exact h1

/-- A step that only touches locals of one thread which the accounting does not look at. -/
theorem countInv_local (p : Params) (s : State) (tid : Nat) (m : MinerState)
    (htid : tid < p.miners) (h : CountInv p s)
    (hbit : m.bitcoins = (s.thread tid).bitcoins) (hidx : m.index = (s.thread tid).index)
    (hcur : m.current_id = (s.thread tid).current_id)
    (hproc : m.processed_transactions = (s.thread tid).processed_transactions)
    (hbusy : busy m = 1) (hbusy0 : busy (s.thread tid) = 1) :
    CountInv p { s with thread := Function.update s.thread tid m } := by
  have hgone : gone m = 0 := by
    unfold busy at hbusy; unfold gone; split at hbusy <;> simp_all
  have hgone0 : gone (s.thread tid) = 0 := by
    unfold busy at hbusy0; unfold gone; split at hbusy0 <;> simp_all
  have hnd : m.pc ≠ Loc.done := by
    intro e; unfold busy at hbusy; rw [e] at hbusy; cases hbusy
  have e1 := sum_update p.miners tid htid gone s.thread m
  have e2 := sum_update p.miners tid htid (fun x => x.bitcoins + busy x) s.thread m
  have e3 := sum_update p.miners tid htid (fun x => x.bitcoins) s.thread m
  simp only at e2 e3
  constructor
  · have := h.cnt_le
    simp only
    omega
  · have := h.sum_eq
    simp only
    omega
  · intro t ht hd
    simp only at hd ⊢
    by_cases e : t = tid
    · subst e
      rw [Function.update_same] at hd
      exact absurd hd hnd
    · rw [Function.update_noteq e] at hd
      exact h.done_imp t ht hd
  · intro t ht hb
    simp only at hb ⊢
    by_cases e : t = tid
    · subst e
      rw [Function.update_same]
      rw [hidx, hcur, hproc]
      exact h.busy_imp t ht hbusy0
    · rw [Function.update_noteq e] at hb ⊢
      exact h.busy_imp t ht hb
  · intro t ht hb
    simp only at hb ⊢
    by_cases e : t = tid
    · subst e
      rw [Function.update_same] at hb
      omega
    · rw [Function.update_noteq e] at hb ⊢
      exact h.idle_imp t ht hb
  · have := h.len_eq
    simp only
    omega

/-- A successful claim: the thread takes the index the counter showed. -/
theorem countInv_claim_ok (p : Params) (s : State) (tid : Nat) (m : MinerState)
    (htid : tid < p.miners) (hpc : (s.thread tid).pc = Loc.claim) (h : CountInv p s)
    (hc : s.current_transaction_index < p.transaction_ids.length)
    (hbit : m.bitcoins = (s.thread tid).bitcoins)
    (hproc : m.processed_transactions = (s.thread tid).processed_transactions)
    (hidx : m.index = s.current_transaction_index)
    (hcur : m.current_id = p.transaction_ids.getD s.current_transaction_index 0)
    (hmpc : m.pc = Loc.readTail) :
    CountInv p ⟨s.tChain, s.current_transaction_index + 1, Function.update s.thread tid m⟩ := by
  have hb0 : busy (s.thread tid) = 0 := by unfold busy; rw [hpc]
  have hg0 : gone (s.thread tid) = 0 := by unfold gone; rw [hpc]
  have hb1 : busy m = 1 := by unfold busy; rw [hmpc]
  have hg1 : gone m = 0 := by unfold gone; rw [hmpc]
  have hcnt := h.cnt_le
  have hsum := h.sum_eq
  have hlen := h.len_eq
  have e1 := sum_update p.miners tid htid gone s.thread m
  have e2 := sum_update p.miners tid htid (fun x => x.bitcoins + busy x) s.thread m
  have e3 := sum_update p.miners tid htid (fun x => x.bitcoins) s.thread m
  simp only at e2 e3
  constructor
  · simp only; omega
  · simp only; omega
  · intro t ht hd
    simp only at hd ⊢
    by_cases e : t = tid
    · subst e
      rw [Function.update_same, hmpc] at hd
      cases hd
    · rw [Function.update_noteq e] at hd
      have := h.done_imp t ht hd
      omega
  · intro t ht hb
    simp only at hb ⊢
    by_cases e : t = tid
    · subst e
      rw [Function.update_same, hidx, hcur, hproc]
      exact ⟨hc, by omega, rfl, fun x hx => h.idle_imp t ht hb0 x hx⟩
    · rw [Function.update_noteq e] at hb ⊢
      obtain ⟨a1, a2, a3, a4⟩ := h.busy_imp t ht hb
      exact ⟨a1, by omega, a3, a4⟩
  · intro t ht hb
    simp only at hb ⊢
    by_cases e : t = tid
    · subst e
      rw [Function.update_same] at hb
      omega
    · rw [Function.update_noteq e] at hb ⊢
      intro x hx
      obtain ⟨j, hj, hjx⟩ := h.idle_imp t ht hb x hx
      exact ⟨j, by omega, hjx⟩
  · simp only; omega

/-- A claim on the exhausted worklist: the thread leaves the loop. -/
theorem countInv_claim_fail (p : Params) (s : State) (tid : Nat) (m : MinerState)
    (htid : tid < p.miners) (hpc : (s.thread tid).pc = Loc.claim) (h : CountInv p s)
    (hc : p.transaction_ids.length ≤ s.current_transaction_index)
    (hbit : m.bitcoins = (s.thread tid).bitcoins)
    (hproc : m.processed_transactions = (s.thread tid).processed_transactions)
    (hmpc : m.pc = Loc.done) :
    CountInv p ⟨s.tChain, s.current_transaction_index + 1, Function.update s.thread tid m⟩ := by
  have hb0 : busy (s.thread tid) = 0 := by unfold busy; rw [hpc]
  have hg0 : gone (s.thread tid) = 0 := by unfold gone; rw [hpc]
  have hb1 : busy m = 0 := by unfold busy; rw [hmpc]
  have hg1 : gone m = 1 := by unfold gone; rw [hmpc]
  have hcnt := h.cnt_le
  have hsum := h.sum_eq
  have hlen := h.len_eq
  have e1 := sum_update p.miners tid htid gone s.thread m
  have e2 := sum_update p.miners tid htid (fun x => x.bitcoins + busy x) s.thread m
  have e3 := sum_update p.miners tid htid (fun x => x.bitcoins) s.thread m
  simp only at e2 e3
  constructor
  · simp only; omega
  · simp only; omega
  · intro t ht _
    simp only
    omega
  · intro t ht hb
    simp only at hb ⊢
    by_cases e : t = tid
    · subst e
      rw [Function.update_same] at hb
      omega
    · rw [Function.update_noteq e] at hb ⊢
      obtain ⟨a1, a2, a3, a4⟩ := h.busy_imp t ht hb
      exact ⟨a1, by omega, a3, a4⟩
  · intro t ht hb
    simp only at hb ⊢
    by_cases e : t = tid
    · subst e
      rw [Function.update_same, hproc]
      intro x hx
      obtain ⟨j, hj, hjx⟩ := h.idle_imp t ht hb0 x hx
      exact ⟨j, by omega, hjx⟩
    · rw [Function.update_noteq e] at hb ⊢
      intro x hx
      obtain ⟨j, hj, hjx⟩ := h.idle_imp t ht hb x hx
      exact ⟨j, by omega, hjx⟩
  · simp only; omega

/-- A commit that adds the record: the index held by the thread is now counted. -/
theorem countInv_commit_add (p : Params) (s : State) (tid : Nat) (m : MinerState)
    (tc : transactionChain)
    (htid : tid < p.miners) (hpc : (s.thread tid).pc = Loc.commit) (h : CountInv p s)
    (hbit : m.bitcoins = (s.thread tid).bitcoins + 1)
    (hproc : m.processed_transactions =
      (s.thread tid).current_id :: (s.thread tid).processed_transactions)
    (hmpc : m.pc = Loc.claim) (htc : tc.mem.length = s.tChain.mem.length + 1) :
    CountInv p ⟨tc, s.current_transaction_index, Function.update s.thread tid m⟩ := by
  have hb0 : busy (s.thread tid) = 1 := by unfold busy; rw [hpc]
  have hg0 : gone (s.thread tid) = 0 := by unfold gone; rw [hpc]
  have hb1 : busy m = 0 := by unfold busy; rw [hmpc]
  have hg1 : gone m = 0 := by unfold gone; rw [hmpc]
  have hcnt := h.cnt_le
  have hsum := h.sum_eq
  have hlen := h.len_eq
  have e1 := sum_update p.miners tid htid gone s.thread m
  have e2 := sum_update p.miners tid htid (fun x => x.bitcoins + busy x) s.thread m
  have e3 := sum_update p.miners tid htid (fun x => x.bitcoins) s.thread m
  simp only at e2 e3
  obtain ⟨b1, b2, b3, b4⟩ := h.busy_imp tid htid hb0
  constructor
  · simp only; omega
  · simp only; omega
  · intro t ht hd
    simp only at hd ⊢
    by_cases e : t = tid
    · subst e
      rw [Function.update_same, hmpc] at hd
      cases hd
    · rw [Function.update_noteq e] at hd
      exact h.done_imp t ht hd
  · intro t ht hb
    simp only at hb ⊢
    by_cases e : t = tid
    · subst e
      rw [Function.update_same] at hb
      omega
    · rw [Function.update_noteq e] at hb ⊢
      exact h.busy_imp t ht hb
  · intro t ht hb
    simp only at hb ⊢
    by_cases e : t = tid
    · subst e
      rw [Function.update_same, hproc]
      intro x hx
      rcases List.mem_cons.mp hx with hx | hx
      · refine ⟨(s.thread t).index, b2, ?_⟩
        rw [hx, b3, List.getD_eq_getElem?_getD, List.getElem?_eq_getElem b1]
        rfl
      · obtain ⟨j, hj, hjx⟩ := b4 x hx
        exact ⟨j, by omega, hjx⟩
    · rw [Function.update_noteq e] at hb ⊢
      exact h.idle_imp t ht hb
  · simp only; omega

/-- With pairwise distinct ids a thread never holds an id it has already processed. -/
theorem not_processed (p : Params) (s : State) (tid : Nat) (hnd : p.transaction_ids.Nodup)
    (htid : tid < p.miners) (hb : busy (s.thread tid) = 1) (h : CountInv p s) :
    (s.thread tid).current_id ∉ (s.thread tid).processed_transactions := by
  intro hmem
  obtain ⟨b1, _, b3, b4⟩ := h.busy_imp tid htid hb
  obtain ⟨j, hj, hjx⟩ := b4 _ hmem
  have hjlt : j < p.transaction_ids.length := by omega
  rw [b3, List.getD_eq_getElem?_getD, List.getElem?_eq_getElem b1,
    List.getElem?_eq_getElem hjlt] at hjx
  simp only [Option.getD_some, Option.some.injEq] at hjx
  have := (List.Nodup.getElem_inj_iff hnd).mp hjx
  omega

theorem busy_of_pc {m : MinerState} (h : m.pc = Loc.readTail ∨ m.pc = Loc.search ∨
    m.pc = Loc.penalty ∨ m.pc = Loc.commit) : busy m = 1 := by
  unfold busy
  rcases h with h | h | h | h <;> rw [h]

theorem gone_eq_one {m : MinerState} : gone m = 1 ↔ m.pc = Loc.done := by
  unfold gone
  cases m.pc <;> simp

theorem gone_le_one (m : MinerState) : gone m ≤ 1 := by
  unfold gone
  split <;> omega

theorem busy_of_done {m : MinerState} (h : m.pc = Loc.done) : busy m = 0 := by
  unfold busy
  rw [h]

/-- The claim that makes the counter wrap: it can only be the exit of the last thread still
in the loop, after every index has been counted. -/
theorem countInv_wrap (p : Params) (s : State) (tid c2 : Nat) (m : MinerState)
    (hW : p.transaction_ids.length + p.miners ≤ 4294967296)
    (htid : tid < p.miners) (hpc : (s.thread tid).pc = Loc.claim) (h : CountInv p s)
    (hc : 4294967296 ≤ s.current_transaction_index + 1)
    (hbit : m.bitcoins = (s.thread tid).bitcoins) (hmpc : m.pc = Loc.done) :
    DoneInv p ⟨s.tChain, c2, Function.update s.thread tid m⟩ := by
  have hb0 : busy (s.thread tid) = 0 := by unfold busy; rw [hpc]
  have hg0 : gone (s.thread tid) = 0 := by unfold gone; rw [hpc]
  have hg1 : gone m = 1 := gone_eq_one.mpr hmpc
  have hcnt := h.cnt_le
  have hsum := h.sum_eq
  have hlen := h.len_eq
  have e1 := sum_update p.miners tid htid gone s.thread m
  have e3 := sum_update p.miners tid htid (fun x => x.bitcoins) s.thread m
  simp only at e3
  have hle := sum_gone_le p.miners (Function.update s.thread tid m)
  -- every other thread has left the loop
  have hothers : ∀ t, t < p.miners → t ≠ tid → (s.thread t).pc = Loc.done := by
    intro t ht hne
    by_contra hnd
    have hgt : gone (s.thread t) = 0 := by
      have := gone_le_one (s.thread t)
      have h1 : gone (s.thread t) ≠ 1 := fun e => hnd (gone_eq_one.mp e)
      omega
    have e2 := sum_update p.miners t ht gone (Function.update s.thread tid m)
      { s.thread t with pc := Loc.done }
    have g2 : gone { s.thread t with pc := Loc.done } = 1 := rfl
    rw [Function.update_noteq hne, hgt, g2] at e2
    have hle2 := sum_gone_le p.miners
      (Function.update (Function.update s.thread tid m) t { s.thread t with pc := Loc.done })
    omega
  have hbusy : ∀ x ∈ Finset.range p.miners, busy (s.thread x) = 0 := by
    intro x hx
    by_cases e : x = tid
    · rw [e]; exact hb0
    · exact busy_of_done (hothers x (Finset.mem_range.mp hx) e)
  rw [Finset.sum_add_distrib, Finset.sum_eq_zero hbusy] at hsum
  refine ⟨?_, ?_, ?_⟩
  · intro t ht
    simp only
    by_cases e : t = tid
    · rw [e, Function.update_same]; exact hmpc
    · rw [Function.update_noteq e]; exact hothers t ht e
  · simp only
    omega
  · simp only
    omega

theorem doneInv_step (p : Params) (s : State) (tid : Nat) (h : DoneInv p s) :
    mineStep p s tid = s := by
  unfold mineStep
  by_cases htid : tid < p.miners
  · rw [if_pos htid]
    simp only [h.1 tid htid]
  · rw [if_neg htid]

theorem countInv_step (p : Params) (s : State) (tid : Nat)
    (hnd : p.transaction_ids.Nodup) (hN : p.transaction_ids.length ≤ 2147483648)
    (hW : p.transaction_ids.length + p.miners ≤ 4294967296)
    (hc : ChainInv p s) (h : CountInv p s) :
    CountInv p (mineStep p s tid) ∨ DoneInv p (mineStep p s tid) := by
  unfold mineStep
  by_cases htid : tid < p.miners
  · rw [if_pos htid]
    cases hpc : (s.thread tid).pc with
    | claim =>
      simp only
      by_cases hlt : s.current_transaction_index < p.transaction_ids.length
      · left
        have hcl := claim_small _ _ (by omega) hlt
        unfold stepClaim
        simp only [hcl]
        exact countInv_claim_ok p s tid _ htid hpc h hlt rfl rfl rfl rfl rfl
      · have hts : p.transaction_ids.length ≤ toSizeT s.current_transaction_index :=
          Nat.le_trans (by omega) (le_toSizeT _)
        have hcl := claim_exhausted _ _ hts
        unfold stepClaim
        simp only [hcl]
        by_cases hwrap : s.current_transaction_index + 1 < 4294967296
        · left
          rw [Nat.mod_eq_of_lt hwrap]
          exact countInv_claim_fail p s tid _ htid hpc h (by omega) rfl rfl rfl
        · right
          exact countInv_wrap p s tid _ _ hW htid hpc h (by omega) rfl rfl
    | readTail =>
      left
      exact countInv_local p s tid _ htid h rfl rfl rfl rfl rfl (busy_of_pc (Or.inl hpc))
    | search =>
      left
      have hb := busy_of_pc (Or.inr (Or.inl hpc))
      simp only [stepSearch]
      split
      · exact countInv_local p s tid _ htid h rfl rfl rfl rfl rfl hb
      · exact countInv_local p s tid _ htid h rfl rfl rfl rfl (by simpa [busy] using hb) hb
    | penalty =>
      left
      have hb := busy_of_pc (Or.inr (Or.inr (Or.inl hpc)))
      simp only [stepPenalty]
      split
      · exact countInv_local p s tid _ htid h rfl rfl rfl rfl (by simpa [busy] using hb) hb
      · exact countInv_local p s tid _ htid h rfl rfl rfl rfl rfl hb
    | commit =>
      left
      have hb := busy_of_pc (Or.inr (Or.inr (Or.inr hpc)))
      have hnp := not_processed p s tid hnd htid hb h
      have hsum := h.sum_eq
      have hterm := term_le_sum p.miners tid htid
        (fun x => (s.thread x).bitcoins + busy (s.thread x))
      simp only at hterm
      simp only [stepCommit]
      split
      · exact countInv_local p s tid _ htid h rfl rfl rfl rfl rfl hb
      · refine countInv_commit_add p s tid _ _ htid hpc h ?_ rfl rfl
          (addNew_length _ hc.1 _ _ _ _)
        simp only
        apply Nat.mod_eq_of_lt
        omega
    | done => exact Or.inl h
  · rw [if_neg htid]
    exact Or.inl h

/-- The chain invariant holds in every reachable state, and so does the accounting, up to
the exit of the last thread. -/
theorem countInv_run (p : Params) (hnd : p.transaction_ids.Nodup)
    (hN : p.transaction_ids.length ≤ 2147483648)
    (hW : p.transaction_ids.length + p.miners ≤ 4294967296) (schedule : List Nat) :
    ChainInv p (run p schedule (init p)) ∧
      (CountInv p (run p schedule (init p)) ∨ DoneInv p (run p schedule (init p))) := by
  refine run_induction p (fun s => ChainInv p s ∧ (CountInv p s ∨ DoneInv p s))
    ⟨chainInv_init p, Or.inl (countInv_init p)⟩ ?_ schedule
  rintro s tid ⟨hc, h | h⟩
  · exact ⟨chainInv_step p s tid hc, countInv_step p s tid hnd hN hW hc h⟩
  · rw [doneInv_step p s tid h]
    exact ⟨hc, Or.inr h⟩

/-- When all threads have left the loop over a worklist of pairwise distinct ids, every index
has been counted once and the chain holds one record per index after the genesis record. -/
theorem completed_count (p : Params) (hnd : p.transaction_ids.Nodup)
    (hN : p.transaction_ids.length ≤ 2147483648)
    (hW : p.transaction_ids.length + p.miners ≤ 4294967296) (h1 : 1 ≤ p.miners)
    (schedule : List Nat) (hdone : Completed p (run p schedule (init p))) :
    totalBitcoins p (run p schedule (init p)) = p.transaction_ids.length ∧
      (run p schedule (init p)).tChain.mem.length = p.transaction_ids.length + 1 := by
  obtain ⟨_, h | h⟩ := countInv_run p hnd hN hW schedule
  · have hge := h.done_imp 0 (by omega) (hdone 0 (by omega))
    have hsum := h.sum_eq
    have hlen := h.len_eq
    have hbusy : ∀ x ∈ Finset.range p.miners,
        busy ((run p schedule (init p)).thread x) = 0 := by
      intro x hx
      exact busy_of_done (hdone x (Finset.mem_range.mp hx))
    rw [Finset.sum_add_distrib, Finset.sum_eq_zero hbusy] at hsum
    unfold totalBitcoins
    omega
  · exact ⟨h.2.1, h.2.2⟩

/-! ## Symbolic execution of one thread -/

theorem mineStep_claim_ok (p : Params) (s : State) (tid : Nat) (htid : tid < p.miners)
    (hpc : (s.thread tid).pc = Loc.claim) (hc1 : s.current_transaction_index < 2147483648)
    (hc : s.current_transaction_index < p.transaction_ids.length) :
    mineStep p s tid =
      ⟨s.tChain, s.current_transaction_index + 1,
        Function.update s.thread tid
          { s.thread tid with
            index := s.current_transaction_index
            current_id := p.transaction_ids.getD s.current_transaction_index 0
            prev_hash := 0
            pc := Loc.readTail }⟩ := by
  have hcl := claim_small _ _ hc1 hc
  unfold mineStep
  rw [if_pos htid]
  simp only [hpc]
  unfold stepClaim
  simp only [hcl]

theorem mineStep_claim_fail (p : Params) (s : State) (tid : Nat) (htid : tid < p.miners)
    (hpc : (s.thread tid).pc = Loc.claim)
    (hc : p.transaction_ids.length ≤ toSizeT s.current_transaction_index)
    (hc2 : s.current_transaction_index + 1 < 4294967296) :
    mineStep p s tid =
      ⟨s.tChain, s.current_transaction_index + 1,
        Function.update s.thread tid { s.thread tid with pc := Loc.done }⟩ := by
  have hcl := claim_large _ _ hc hc2
  unfold mineStep
  rw [if_pos htid]
  simp only [hpc]
  unfold stepClaim
  simp only [hcl]

/-- One full round of a thread whose first draw passes the search, with a penalty loop of one
iteration whose draw passes the commit, on an id the thread has not processed: six steps
later the record is in the chain and counted. -/
theorem run_round (p : Params) (s : State) (tid : Nat) (htid : tid < p.miners)
    (hpc : (s.thread tid).pc = Loc.claim) (hc1 : s.current_transaction_index < 2147483648)
    (hc : s.current_transaction_index < p.transaction_ids.length)
    (hwf : work_factor p.difficulty = 1)
    (h1 : hashValue (p.transaction_ids.getD s.current_transaction_index 0)
      (tailHash p.uint_hash s.tChain) (p.rng tid (s.thread tid).draws % 4294967296)
        ≤ p.threshold)
    (h2 : hashValue (p.transaction_ids.getD s.current_transaction_index 0)
      (tailHash p.uint_hash s.tChain) (p.rng tid ((s.thread tid).draws + 1) % 4294967296)
        ≤ p.threshold)
    (hnew : p.transaction_ids.getD s.current_transaction_index 0 ∉
      (s.thread tid).processed_transactions)
    (hbit : (s.thread tid).bitcoins + 1 < 4294967296) :
    run p (List.replicate 6 tid) s =
      ⟨s.tChain.addNew (p.transaction_ids.getD s.current_transaction_index 0)
          (tailHash p.uint_hash s.tChain)
          (p.rng tid ((s.thread tid).draws + 1) % 4294967296) tid,
        s.current_transaction_index + 1,
        Function.update s.thread tid
          ⟨Loc.claim, (s.thread tid).bitcoins + 1, s.current_transaction_index,
            p.transaction_ids.getD s.current_transaction_index 0,
            tailHash p.uint_hash s.tChain,
            p.rng tid ((s.thread tid).draws + 1) % 4294967296, 1,
            p.transaction_ids.getD s.current_transaction_index 0 ::
              (s.thread tid).processed_transactions,
            (s.thread tid).draws + 2⟩⟩ := by
  have hle1 : ¬ hashValue (p.transaction_ids.getD s.current_transaction_index 0)
      (tailHash p.uint_hash s.tChain) (p.rng tid ((s.thread tid).draws + 1) % 4294967296)
        > p.threshold := by omega
  simp only [List.replicate, run_cons, run_nil]
  rw [mineStep_claim_ok p s tid htid hpc hc1 hc]
  simp only [mineStep, if_pos htid, Function.update_same, stepReadTail, stepSearch, dist, h1,
    if_true, Function.update_idem, stepPenalty, hwf, Nat.lt_irrefl, if_false, stepCommit,
    Nat.zero_lt_one, Nat.zero_add, Nat.mod_eq_of_lt (show 1 < 4294967296 by norm_num),
    hle1, hnew, Nat.mod_eq_of_lt hbit]

/-! ## A worklist longer than `2^31` -/

theorem tailHash_addNew (uint_hash : Nat → Nat) (tc : transactionChain) (hL : Linked tc)
    (c q r id : Nat) :
    tailHash uint_hash (tc.addNew c q r id) = hashRecord uint_hash (c, q, r, id) := by
  apply tailHash_linked _ _ (addNew_linked tc hL c q r id)
  rw [addNew_payload tc hL, addNew_length tc hL, Nat.add_sub_cancel]
  have : tc.mem.length = (tc.mem.map payload).length := by simp
  rw [this]
  exact List.getElem?_concat_length _ _

/-- The nonce `(k mod 2^16) * 2^15` makes the word of id `k` after a zero digest zero. -/
theorem hashValue_own (k : Nat) : hashValue k 0 ((k % 65536) * 32768) = 0 := by
  have h := hashValue_half k 0
  have h0 : shl32 0 8 = 0 := by decide
  have h1 : (shl32 k 16 ^^^ shl32 0 8) / 2 = (k % 65536) * 32768 := by
    rw [h0, Nat.xor_zero]
    unfold shl32
    rw [Nat.shiftLeft_eq]
    omega
  rwa [h1] at h

theorem afterRounds_init : AfterRounds 0 (init overflowParams) := by
  refine ⟨rfl, rfl, rfl, rfl, ?_, init_linked _, ?_⟩
  · intro x hx
    simp [init] at hx
  · decide

theorem afterRounds_succ (k : Nat) (hk : k < 2147483648) (s : State) (h : AfterRounds k s) :
    AfterRounds (k + 1) (run overflowParams (List.replicate 6 0) s) := by
  obtain ⟨hc, hpc, hb, hd, hp, hL, ht⟩ := h
  have hlen : overflowParams.transaction_ids.length = 2147483649 := by
    simp [overflowParams]
  have hid : overflowParams.transaction_ids.getD k 0 = k := by
    simp only [overflowParams]
    rw [List.getD_eq_getElem?_getD, List.getElem?_range (by omega)]
    rfl
  have hth : overflowParams.uint_hash = fun x => x := rfl
  have hr1 : overflowParams.rng 0 (2 * k) % 4294967296 = (k % 65536) * 32768 := by
    simp only [overflowParams]
    omega
  have hr2 : overflowParams.rng 0 (2 * k + 1) % 4294967296 = (k % 65536) * 32768 := by
    simp only [overflowParams]
    omega
  have hzero := hashValue_own k
  have hround := run_round overflowParams s 0 (by decide) hpc (by omega) (by omega) (by decide)
    (by rw [hc, hid, hth, ht, hd, hr1, hzero]; exact Nat.zero_le _)
    (by rw [hc, hid, hth, ht, hd, hr2, hzero]; exact Nat.zero_le _)
    (by rw [hc, hid]; intro hm; exact absurd (hp k hm) (Nat.lt_irrefl k))
    (by omega)
  rw [hround]
  refine ⟨by simp only; omega, by simp, by simp only [Function.update_same]; omega,
    by simp only [Function.update_same]; omega, ?_, addNew_linked _ hL _ _ _ _, ?_⟩
  · intro x hx
    simp only [Function.update_same, List.mem_cons] at hx
    rcases hx with hx | hx
    · rw [hx, hc, hid]; omega
    · have := hp x hx; omega
  · simp only
    rw [← hth, tailHash_addNew _ _ hL, hc, hid, hth, ht, hd, hr2]
    unfold hashRecord
    simp only
    rw [hzero]

theorem afterRounds_run (k : Nat) (hk : k ≤ 2147483648) :
    AfterRounds k (run overflowParams (List.replicate (6 * k) 0) (init overflowParams)) := by
  induction k with
  | zero => exact afterRounds_init
  | succ k ih =>
    have e : 6 * (k + 1) = 6 * k + 6 := by omega
    rw [e, List.replicate_add, run_append]
    exact afterRounds_succ k (by omega) _ (ih (by omega))

theorem overflowParams_length : overflowParams.transaction_ids.length = 2147483649 := by
  simp only [overflowParams, List.length_range]

/-- A thread whose claim finds the worklist exhausted leaves the loop with its count. -/
theorem mineStep_claim_fail_thread (p : Params) (s : State) (tid : Nat) (htid : tid < p.miners)
    (hpc : (s.thread tid).pc = Loc.claim)
    (hc : p.transaction_ids.length ≤ toSizeT s.current_transaction_index)
    (hc2 : s.current_transaction_index + 1 < 4294967296) :
    ((mineStep p s tid).thread tid).pc = Loc.done ∧
      ((mineStep p s tid).thread tid).bitcoins = (s.thread tid).bitcoins := by
  rw [mineStep_claim_fail p s tid htid hpc hc hc2]
  simp only [Function.update_same, and_self]

/-- The run of `overflowParams` ends after `2^31` rounds: the next value of the counter is a
negative `int`, which the bound test sees as a huge `size_t`. -/
theorem overflow_run :
    ((run overflowParams (List.replicate 12884901889 0) (init overflowParams)).thread 0).pc =
        Loc.done ∧
      ((run overflowParams (List.replicate 12884901889 0) (init overflowParams)).thread
        0).bitcoins = 2147483648 := by
  have e : (12884901889 : Nat) = 6 * 2147483648 + 1 := by norm_num
  obtain ⟨hc, hpc, hb, _, _, _, _⟩ := afterRounds_run 2147483648 (Nat.le_refl _)
  have hts : overflowParams.transaction_ids.length ≤
      toSizeT (run overflowParams (List.replicate (6 * 2147483648) 0)
        (init overflowParams)).current_transaction_index := by
    rw [hc, overflowParams_length]
    decide
  have hstep := mineStep_claim_fail_thread overflowParams _ 0 (by decide) hpc hts
    (by rw [hc]; norm_num)
  have e1 : List.replicate 1 0 = [0] := rfl
  rw [e, List.replicate_add, run_append, e1, run_cons, run_nil]
  exact ⟨hstep.1, hstep.2.trans hb⟩

/-! ## More threads than values of the counter -/

theorem mineStep_claim_exhausted (p : Params) (s : State) (tid : Nat) (htid : tid < p.miners)
    (hpc : (s.thread tid).pc = Loc.claim)
    (hc : p.transaction_ids.length ≤ toSizeT s.current_transaction_index) :
    mineStep p s tid =
      ⟨s.tChain, (s.current_transaction_index + 1) % 4294967296,
        Function.update s.thread tid { s.thread tid with pc := Loc.done }⟩ := by
  have hcl := claim_exhausted _ _ hc
  unfold mineStep
  rw [if_pos htid]
  simp only [hpc]
  unfold stepClaim
  simp only [hcl]

theorem wrapParams_length : wrapParams.transaction_ids.length = 1 := rfl

theorem wrapParams_miners : wrapParams.miners = 4294967296 := rfl

/-- The first seven steps: thread 0 mines the id 7 and leaves the loop. -/
theorem afterExits_zero :
    AfterExits 0 (run wrapParams (List.replicate 7 0) (init wrapParams)) := by
  have hround := run_round wrapParams (init wrapParams) 0 (by decide) rfl (by decide)
    (by decide) (by decide) (by decide) (by decide) (by decide) (by decide)
  have e : List.replicate 7 0 = List.replicate 6 0 ++ [0] := rfl
  rw [e, run_append, hround, run_cons, run_nil]
  rw [mineStep_claim_fail wrapParams _ 0 (by decide) (by simp) (by decide) (by decide)]
  refine ⟨rfl, by simp, by simp [init], ?_, ?_, addNew_linked _ (init_linked _) _ _ _ _, ?_⟩
  · intro t h1 h2
    omega
  · intro t ht
    have hne : t ≠ 0 := by omega
    simp only
    rw [Function.update_noteq hne, Function.update_noteq hne]
  · simp only
    rw [tailHash_addNew _ _ (init_linked _)]
    decide

theorem afterExits_succ (j : Nat) (hj : j + 1 ≤ 4294967294) (s : State)
    (h : AfterExits j s) : AfterExits (j + 1) (mineStep wrapParams s (j + 1)) := by
  obtain ⟨hc, hp0, hb0, hmid, hrest, hL, ht⟩ := h
  have hc2 : s.current_transaction_index = 2 + j := by
    rw [hc, Nat.mod_eq_of_lt (by omega)]
  have hth : s.thread (j + 1) = (init wrapParams).thread (j + 1) := hrest (j + 1) (by omega)
  have hpc : (s.thread (j + 1)).pc = Loc.claim := by rw [hth]; rfl
  have hbit : (s.thread (j + 1)).bitcoins = 0 := by rw [hth]; rfl
  have hts : wrapParams.transaction_ids.length ≤ toSizeT s.current_transaction_index := by
    rw [wrapParams_length, hc2]
    exact Nat.le_trans (by omega) (le_toSizeT _)
  rw [mineStep_claim_exhausted wrapParams s (j + 1) (by rw [wrapParams_miners]; omega) hpc hts]
  refine ⟨?_, ?_, ?_, ?_, ?_, hL, ht⟩
  · simp only
    rw [hc2]
    omega
  · simp only
    rw [Function.update_noteq (by omega)]
    exact hp0
  · simp only
    rw [Function.update_noteq (by omega)]
    exact hb0
  · intro t h1 h2
    simp only
    by_cases e : t = j + 1
    · rw [e, Function.update_same]
      exact ⟨rfl, hbit⟩
    · rw [Function.update_noteq e]
      exact hmid t h1 (by omega)
  · intro t ht2
    simp only
    rw [Function.update_noteq (by omega)]
    exact hrest t (by omega)

theorem afterExits_run : ∀ (n j : Nat) (s : State), AfterExits j s → j + n ≤ 4294967294 →
    AfterExits (j + n) (run wrapParams (List.range' (j + 1) n) s)
  | 0, _, _, h, _ => h
  | n + 1, j, s, h, hjn => by
    rw [List.range'_succ, run_cons]
    have := afterExits_run n (j + 1) _ (afterExits_succ j (by omega) s h) (by omega)
    have e : j + 1 + n = j + (n + 1) := by omega
    rwa [e] at this


/-- A sum over the threads in which only the first and the last summand are not zero. -/
theorem sum_ends (f : Nat → Nat) (n N last : Nat) (hN : N = n + 2) (hl : last = n + 1)
    (hmid : ∀ t, 1 ≤ t → t ≤ n → f t = 0) :
    ∑ t in Finset.range N, f t = f 0 + f last := by
  have hz : ∑ t in Finset.range n, f (t + 1) = 0 :=
    Finset.sum_eq_zero (fun t ht => hmid (t + 1) (by omega) (by
      have := Finset.mem_range.mp ht
      omega))
  rw [hN, hl, Finset.sum_range_succ, Finset.sum_range_succ', hz]
  omega

/-- The last seven steps: with the counter back at 0, the last thread mines the id 7 a second
time and leaves the loop; all threads have then left, with a total of 2. -/
theorem wrap_last (s : State) (h : AfterExits 4294967294 s) :
    Completed wrapParams (run wrapParams (List.replicate 7 4294967295) s) ∧
      totalBitcoins wrapParams (run wrapParams (List.replicate 7 4294967295) s) = 2 := by
  obtain ⟨hc, hp0, hb0, hmid, hrest, hL, ht⟩ := h
  have hc0 : s.current_transaction_index = 0 := by rw [hc]
  have hth : s.thread 4294967295 = (init wrapParams).thread 4294967295 :=
    hrest 4294967295 (by omega)
  have hpc : (s.thread 4294967295).pc = Loc.claim := by rw [hth]; rfl
  have hbit : (s.thread 4294967295).bitcoins = 0 := by rw [hth]; rfl
  have hproc : (s.thread 4294967295).processed_transactions = [] := by rw [hth]; rfl
  have ht2 : tailHash wrapParams.uint_hash s.tChain = 0 := ht
  have hid : wrapParams.transaction_ids.getD s.current_transaction_index 0 = 7 := by
    rw [hc0]; rfl
  have hr : ∀ k, wrapParams.rng 4294967295 k = 229376 := fun _ => rfl
  have hround := run_round wrapParams s 4294967295 (by decide) hpc (by omega)
    (by rw [hc0]; decide) (by decide)
    (by rw [hid, ht2, hr]; decide) (by rw [hid, ht2, hr]; decide)
    (by rw [hid, hproc]; simp) (by omega)
  have e : List.replicate 7 4294967295 = List.replicate 6 4294967295 ++ [4294967295] := rfl
  rw [e, run_append, hround, run_cons, run_nil]
  rw [mineStep_claim_fail wrapParams _ 4294967295 (by decide) (by simp)
    (by simp only; rw [hc0]; decide) (by simp only; omega)]
  constructor
  · intro t htw
    simp only
    by_cases e1 : t = 4294967295
    · rw [e1, Function.update_same]
    · rw [Function.update_noteq e1, Function.update_noteq e1]
      by_cases e0 : t = 0
      · rw [e0]; exact hp0
      · rw [wrapParams_miners] at htw
        exact (hmid t (by omega) (by omega)).1
  · unfold totalBitcoins
    rw [wrapParams_miners]
    refine (sum_ends _ 4294967294 4294967296 4294967295 (by norm_num) (by norm_num)
      ?_).trans ?_
    · intro t h1 h2
      simp only
      rw [Function.update_noteq (by omega), Function.update_noteq (by omega)]
      exact (hmid t h1 h2).2
    · simp only [Function.update_same]
      rw [Function.update_noteq (by omega), Function.update_noteq (by omega), hb0, hbit]

/-- The run of `wrapParams` along `wrapSchedule` completes with a total of 2 for one id. -/
theorem wrap_run :
    Completed wrapParams (run wrapParams wrapSchedule (init wrapParams)) ∧
      totalBitcoins wrapParams (run wrapParams wrapSchedule (init wrapParams)) = 2 := by
  have h := afterExits_run 4294967294 0 _ afterExits_zero (by omega)
  rw [Nat.zero_add, Nat.zero_add] at h
  unfold wrapSchedule
  rw [run_append, run_append]
  exact wrap_last _ h

/-! ## Consequences of the invariants -/

theorem allBelow_eq_true (uint_hash : Nat → Nat) (threshold : Nat) (l : List transaction) :
    allBelow uint_hash threshold l = true ↔
      ∀ t, t ∈ l → hashTransaction uint_hash t ≤ threshold := by
  simp [allBelow, List.all_eq_true]

/-- In every reachable state the inline word of every record after the first is within the
threshold, whatever the hash function, the number of threads and the schedule. -/
theorem appended_word_le (p : Params) (schedule : List Nat) (i : Nat) (t : transaction)
    (hi : 1 ≤ i) (ht : (run p schedule (init p)).tChain.mem[i]? = some t) :
    hashValue t.current t.prev t.rand ≤ p.threshold := by
  obtain ⟨_, _, hw⟩ := chainInv_run p schedule
  apply hw (payload t)
  rw [List.mem_iff_getElem?]
  refine ⟨i - 1, ?_⟩
  rw [List.getElem?_tail, List.getElem?_map]
  have : i - 1 + 1 = i := by omega
  rw [this, ht]
  rfl

/-- When `std::hash<unsigned int>`, converted to `unsigned int`, is the identity on the even
32-bit words, the validator accepts the chain of every reachable state. -/
theorem validator_true_of_identity (p : Params)
    (hid : ∀ x, x < 4294967296 → x % 2 = 0 → p.uint_hash x % 4294967296 = x)
    (schedule : List Nat) :
    transactionValidator p.uint_hash (run p schedule (init p)).tChain p.threshold =
      some true := by
  obtain ⟨hL, _, _⟩ := chainInv_run p schedule
  rw [validator_linked _ _ _ hL]
  congr 1
  rw [allBelow_eq_true]
  intro t ht
  obtain ⟨j, hj⟩ := List.mem_iff_getElem?.mp ht
  rw [List.getElem?_drop] at hj
  rw [hashTransaction_eq_hashValue _ hid]
  exact appended_word_le p schedule (1 + j) t (by omega) hj

/-- When `std::hash<unsigned int>`, converted to `unsigned int`, is the identity on the even
32-bit words, every record after the genesis record has a hash within the threshold in every
reachable state. -/
theorem appended_hash_le_of_identity (p : Params)
    (hid : ∀ x, x < 4294967296 → x % 2 = 0 → p.uint_hash x % 4294967296 = x)
    (schedule : List Nat) (i : Nat) (t : transaction) (hi : 1 ≤ i)
    (ht : (run p schedule (init p)).tChain.mem[i]? = some t) :
    hashTransaction p.uint_hash t ≤ p.threshold := by
  rw [hashTransaction_eq_hashValue _ hid]
  exact appended_word_le p schedule i t hi ht

theorem genesis_first (p : Params) (schedule : List Nat) :
    ∃ g, (run p schedule (init p)).tChain.mem[0]? = some g ∧
      g.current = 0 ∧ g.prev = 0 ∧ g.rand = 0 := by
  obtain ⟨_, hg, _⟩ := chainInv_run p schedule
  cases hm : (run p schedule (init p)).tChain.mem with
  | nil => rw [hm] at hg; cases hg
  | cons g l =>
    rw [hm] at hg
    simp only [List.map_cons, List.head?_cons, Option.some.injEq, payload,
      Prod.mk.injEq] at hg
    exact ⟨g, by simp, hg.1, hg.2.1, hg.2.2.1⟩

/-- The traversal of a chain is empty for a null `head`, and otherwise the head followed by
the traversal from its `next`. -/
theorem traversal_some (tc : transactionChain) (l : List Nat) :
    traversal tc = some l ↔
      (tc.head = none ∧ l = []) ∨
        ∃ h hd rest, tc.head = some h ∧ tc.mem[h]? = some hd ∧
          forward tc.mem tc.mem.length hd.next = some rest ∧ l = h :: rest := by
  unfold traversal
  cases hh : tc.head with
  | none => simp [forward, eq_comm]
  | some h =>
    cases hm : tc.mem[h]? with
    | none => simp [forward, hm]
    | some hd =>
      simp only [forward, hm, false_or, reduceCtorEq, false_and, Option.some.injEq]
      constructor
      · intro hl
        cases hf : forward tc.mem tc.mem.length hd.next with
        | none => simp [hf] at hl
        | some rest =>
          simp only [hf, Option.map_some', Option.some.injEq] at hl
          exact ⟨h, hd, rest, rfl, hm, hf, hl.symm⟩
      · rintro ⟨h2, hd2, rest, e1, e2, hf, hl⟩
        subst e1
        rw [hm] at e2
        cases e2
        rw [hf, hl]
        rfl

theorem mem_drop_one_iff (l : List transaction) (t : transaction) :
    t ∈ l.drop 1 ↔ ∃ i, 1 ≤ i ∧ l[i]? = some t := by
  rw [List.mem_iff_getElem?]
  constructor
  · rintro ⟨j, hj⟩
    rw [List.getElem?_drop] at hj
    exact ⟨1 + j, by omega, hj⟩
  · rintro ⟨i, hi, ht⟩
    refine ⟨i - 1, ?_⟩
    rw [List.getElem?_drop]
    have : 1 + (i - 1) = i := by omega
    rw [this]
    exact ht

/-- The verdict of the validator on a linked chain, as a statement about the records. -/
theorem validator_linked_iff (uint_hash : Nat → Nat) (tc : transactionChain) (threshold : Nat)
    (hL : Linked tc) :
    (transactionValidator uint_hash tc threshold = some true ↔
      ∀ (i : Nat) (t : transaction), 1 ≤ i → tc.mem[i]? = some t →
        hashTransaction uint_hash t ≤ threshold) ∧
    (transactionValidator uint_hash tc threshold = some false ↔
      ¬ ∀ (i : Nat) (t : transaction), 1 ≤ i → tc.mem[i]? = some t →
        hashTransaction uint_hash t ≤ threshold) := by
  have key : allBelow uint_hash threshold (tc.mem.drop 1) = true ↔
      ∀ (i : Nat) (t : transaction), 1 ≤ i → tc.mem[i]? = some t →
        hashTransaction uint_hash t ≤ threshold := by
    rw [allBelow_eq_true]
    constructor
    · intro h i t hi ht
      exact h t ((mem_drop_one_iff _ _).mpr ⟨i, hi, ht⟩)
    · intro h t ht
      obtain ⟨i, hi, hti⟩ := (mem_drop_one_iff _ _).mp ht
      exact h i t hi hti
  rw [validator_linked uint_hash tc threshold hL]
  constructor
  · rw [Option.some.injEq]
    exact key
  · rw [Option.some.injEq, ← key]
    cases allBelow uint_hash threshold (List.drop 1 tc.mem) <;> simp

/-! ## The claims -/

/-- C1, at the failing input: the single-thread run of `fnvParams` (one id, difficulty 1,
FNV-1a as `std::hash<unsigned int>`) completes in seven steps and the validator rejects its
chain. -/
theorem C1_validator_rejects_completed_run :
    fnvParams.miners = 1 ∧ fnvParams.difficulty = 1 ∧ fnvParams.threshold = threshold_of 1 ∧
      Completed fnvParams (run fnvParams (List.replicate 7 0) (init fnvParams)) ∧
      transactionValidator fnvParams.uint_hash
        (run fnvParams (List.replicate 7 0) (init fnvParams)).tChain fnvParams.threshold =
          some false := by
  refine ⟨rfl, rfl, rfl, ?_, ?_⟩
  · unfold Completed
    decide
  · decide

/-- C2, as stated, fails in three ways. With the id 5 at both positions of the worklist the
single thread skips the second position: the completed run has a total of 1 for 2 positions.
With `2^31 + 1` pairwise distinct ids the completed run of `overflowParams` has a total of
`2^31`. With one id and `2^32` threads the completed run of `wrapParams` along `wrapSchedule`
has a total of 2. -/
theorem C2_counterexample :
    (duplicateParams.transaction_ids.length = 2 ∧ duplicateParams.miners = 1 ∧
      Completed duplicateParams
        (run duplicateParams (List.replicate 13 0) (init duplicateParams)) ∧
      totalBitcoins duplicateParams
        (run duplicateParams (List.replicate 13 0) (init duplicateParams)) = 1) ∧
    (overflowParams.transaction_ids.length = 2147483649 ∧
      overflowParams.transaction_ids.Nodup ∧ overflowParams.miners = 1 ∧
      Completed overflowParams
        (run overflowParams (List.replicate 12884901889 0) (init overflowParams)) ∧
      totalBitcoins overflowParams
        (run overflowParams (List.replicate 12884901889 0) (init overflowParams)) =
          2147483648) ∧
    (wrapParams.transaction_ids.length = 1 ∧ wrapParams.transaction_ids.Nodup ∧
      wrapParams.miners = 4294967296 ∧
      Completed wrapParams (run wrapParams wrapSchedule (init wrapParams)) ∧
      totalBitcoins wrapParams (run wrapParams wrapSchedule (init wrapParams)) = 2) := by
  have hm : overflowParams.miners = 1 := by simp only [overflowParams]
  have hnd : overflowParams.transaction_ids.Nodup := by
    simp only [overflowParams]
    exact List.nodup_range _
  refine ⟨⟨by decide, by decide, by unfold Completed; decide, by decide⟩,
    ⟨overflowParams_length, hnd, hm, ?_, ?_⟩,
    ⟨wrapParams_length, by simp [wrapParams], wrapParams_miners, wrap_run.1, wrap_run.2⟩⟩
  · intro tid htid
    have h0 : tid = 0 := by omega
    subst h0
    exact overflow_run.1
  · unfold totalBitcoins
    rw [hm, Finset.sum_range_one]
    exact overflow_run.2

/-- C2, amended: for every completed run over a worklist of `N` pairwise distinct ids with
`W >= 1` threads, where `N <= 2^31` and `N + W <= 2^32` (which holds whenever both numbers
fit the `int` variables of `main`), the sum of the `bitcoins` counters of the threads equals
`N`. -/
theorem C2_total_bitcoins (p : Params) (hW : 1 ≤ p.miners) (hnd : p.transaction_ids.Nodup)
    (hN : p.transaction_ids.length ≤ 2147483648)
    (hNW : p.transaction_ids.length + p.miners ≤ 4294967296) (schedule : List Nat)
    (hdone : Completed p (run p schedule (init p))) :
    totalBitcoins p (run p schedule (init p)) = p.transaction_ids.length :=
  (completed_count p hnd hN hNW hW schedule hdone).1

/-- C2, amended, on a completed run of two threads that take their steps in turn over three
ids. -/
theorem C2_total_bitcoins_witness :
    (1 ≤ twoThreadParams.miners ∧ twoThreadParams.transaction_ids.Nodup ∧
      twoThreadParams.transaction_ids.length ≤ 2147483648 ∧
      twoThreadParams.transaction_ids.length + twoThreadParams.miners ≤ 4294967296 ∧
      Completed twoThreadParams
        (run twoThreadParams
          [0, 1, 0, 1, 0, 1, 0, 1, 0, 1, 0, 1, 0, 1, 0, 1, 0, 1, 0, 1, 0, 1, 0, 1, 0, 1]
          (init twoThreadParams))) ∧
    totalBitcoins twoThreadParams
        (run twoThreadParams
          [0, 1, 0, 1, 0, 1, 0, 1, 0, 1, 0, 1, 0, 1, 0, 1, 0, 1, 0, 1, 0, 1, 0, 1, 0, 1]
          (init twoThreadParams)) =
      twoThreadParams.transaction_ids.length :=
  ⟨⟨by decide, by decide, by decide, by decide, by unfold Completed; decide⟩,
    C2_total_bitcoins twoThreadParams (by decide) (by decide) (by decide) (by decide)
      [0, 1, 0, 1, 0, 1, 0, 1, 0, 1, 0, 1, 0, 1, 0, 1, 0, 1, 0, 1, 0, 1, 0, 1, 0, 1]
      (by unfold Completed; decide)⟩

/-- C3, as stated, fails: `overflowParams` has `2^31 + 1` pairwise distinct ids, one thread and
difficulty 1; its run completes, and the mined count of the thread is `2^31`, one less than
the number of ids. -/
theorem C3_counterexample :
    overflowParams.miners = 1 ∧ overflowParams.transaction_ids.Nodup ∧
      overflowParams.transaction_ids.length = 2147483649 ∧
      overflowParams.difficulty = 1 ∧ overflowParams.threshold = threshold_of 1 ∧
      Completed overflowParams
        (run overflowParams (List.replicate 12884901889 0) (init overflowParams)) ∧
      ((run overflowParams (List.replicate 12884901889 0) (init overflowParams)).thread
        0).bitcoins = 2147483648 := by
  have hm : overflowParams.miners = 1 := by simp only [overflowParams]
  refine ⟨hm, ?_, overflowParams_length, by simp only [overflowParams],
    by simp only [overflowParams], ?_, overflow_run.2⟩
  · simp only [overflowParams]
    exact List.nodup_range _
  · intro tid htid
    have h0 : tid = 0 := by omega
    subst h0
    exact overflow_run.1

/-- C3, amended: for every worklist of `N <= 2^31` pairwise distinct ids, every threshold and
every difficulty, a completed single-thread run started from the genesis-only chain ends with a
chain of exactly `N + 1` records, traversed in the order of the store, whose first record is
the genesis record `(0, 0, 0)`, and the mined count of the thread is exactly `N`. -/
theorem C3_single_thread_result (p : Params) (hW : p.miners = 1)
    (hnd : p.transaction_ids.Nodup) (hN : p.transaction_ids.length ≤ 2147483648)
    (schedule : List Nat) (hdone : Completed p (run p schedule (init p))) :
    traversal (run p schedule (init p)).tChain =
        some (List.range (p.transaction_ids.length + 1)) ∧
      (run p schedule (init p)).tChain.mem.length = p.transaction_ids.length + 1 ∧
      (∃ g, (run p schedule (init p)).tChain.mem[0]? = some g ∧
        g.current = 0 ∧ g.prev = 0 ∧ g.rand = 0) ∧
      ((run p schedule (init p)).thread 0).bitcoins = p.transaction_ids.length := by
  obtain ⟨hsum, hlen⟩ := completed_count p hnd hN (by omega) (by omega) schedule hdone
  have hc := chainInv_run p schedule
  refine ⟨?_, hlen, genesis_first p schedule, ?_⟩
  · rw [traversal_linked _ hc.1, hlen]
  · unfold totalBitcoins at hsum
    rw [hW, Finset.sum_range_one] at hsum
    exact hsum

/-- C3, amended, on the completed run of `sampleParams`: three ids, four records, a count
of three. -/
theorem C3_single_thread_result_witness :
    (sampleParams.miners = 1 ∧ sampleParams.transaction_ids.Nodup ∧
      sampleParams.transaction_ids.length ≤ 2147483648 ∧
      Completed sampleParams (run sampleParams (List.replicate 19 0) (init sampleParams))) ∧
    (traversal (run sampleParams (List.replicate 19 0) (init sampleParams)).tChain =
        some (List.range (sampleParams.transaction_ids.length + 1)) ∧
      (run sampleParams (List.replicate 19 0) (init sampleParams)).tChain.mem.length =
        sampleParams.transaction_ids.length + 1 ∧
      (∃ g, (run sampleParams (List.replicate 19 0) (init sampleParams)).tChain.mem[0]? =
          some g ∧ g.current = 0 ∧ g.prev = 0 ∧ g.rand = 0) ∧
      ((run sampleParams (List.replicate 19 0) (init sampleParams)).thread 0).bitcoins =
        sampleParams.transaction_ids.length) :=
  ⟨⟨by decide, by decide, by decide, by unfold Completed; decide⟩,
    C3_single_thread_result sampleParams (by decide) (by decide) (by decide)
      (List.replicate 19 0) (by unfold Completed; decide)⟩

/-- C4, as stated, fails: with a worklist of length 1 the claims number 0 and number `2^32`
both return index 0, and the second of them comes after a claim that returned exhausted. -/
theorem C4_counterexample :
    (claims 1 0 4294967297)[0]? = some (some 0) ∧
      (claims 1 0 4294967297)[1]? = some none ∧
      (claims 1 0 4294967297)[4294967296]? = some (some 0) := by
  refine ⟨?_, ?_, ?_⟩
  · rw [claims_get 1 4294967297 0 0 (by norm_num) (by norm_num)]
    decide
  · rw [claims_get 1 4294967297 0 1 (by norm_num) (by norm_num)]
    decide
  · rw [claims_get 1 4294967297 0 4294967296 (by norm_num) (by norm_num)]
    decide

/-- C4, amended: for every worklist length `N` and every sequence of at most `2^32` claims
starting from counter 0, every successful claim returns an index below `N`, no two successful
claims return the same index, and after a claim that returned exhausted every later claim
returns exhausted; when `N` is a length a vector can have (at most `2^64 - 2^31`), the index
returned by a successful claim is a non-negative `int`, equal to the number of the claim. -/
theorem C4_claims_unique_in_range (N k : Nat) (hk : k ≤ 4294967296) :
    (∀ i index : Nat, (claims N 0 k)[i]? = some (some index) → index < N) ∧
    (∀ i j a b : Nat, i < j → (claims N 0 k)[i]? = some (some a) →
      (claims N 0 k)[j]? = some (some b) → a ≠ b) ∧
    (∀ i j : Nat, i < j → j < k → (claims N 0 k)[i]? = some none →
      (claims N 0 k)[j]? = some none) ∧
    (N ≤ 18446744071562067968 → ∀ i index : Nat,
      (claims N 0 k)[i]? = some (some index) → index = i ∧ index < 2147483648) :=
  ⟨(claims_sound N k hk).1, (claims_sound N k hk).2.1, (claims_sound N k hk).2.2,
    fun hN i index h => claims_index N k hk hN i index h⟩

/-- C4, amended, on five claims over a worklist of three ids: the results are the indices 0,
1, 2 and then exhausted twice. -/
theorem C4_claims_unique_in_range_witness :
    5 ≤ 4294967296 ∧ claims 3 0 5 = [some 0, some 1, some 2, none, none] ∧
    ((∀ i index : Nat, (claims 3 0 5)[i]? = some (some index) → index < 3) ∧
    (∀ i j a b : Nat, i < j → (claims 3 0 5)[i]? = some (some a) →
      (claims 3 0 5)[j]? = some (some b) → a ≠ b) ∧
    (∀ i j : Nat, i < j → j < 5 → (claims 3 0 5)[i]? = some none →
      (claims 3 0 5)[j]? = some none) ∧
    (3 ≤ 18446744071562067968 → ∀ i index : Nat,
      (claims 3 0 5)[i]? = some (some index) → index = i ∧ index < 2147483648)) :=
  ⟨by decide, by decide, C4_claims_unique_in_range 3 5 (by decide)⟩

/-- C5: for every chain and every threshold, `transactionValidator` returns true if and only if
the forward traversal of the chain from `head` ends and the chain is empty or every record
after the head record has a hash within the threshold and a backward link to the record just
before it in the traversal; on a chain whose traversal ends and that fails one of these checks
it returns false; a traversal that ends does so within the iterations the loop is given. In
particular the validator returns true on the empty chain and on the chain holding only the
genesis record, for every threshold. -/
theorem C5_validator_characterisation (uint_hash : Nat → Nat) (tChain : transactionChain)
    (threshold : Nat) :
    (transactionValidator uint_hash tChain threshold = some true ↔
      ∃ l, traversal tChain = some l ∧ chainOk uint_hash tChain.mem threshold l) ∧
    (∀ l, traversal tChain = some l → ¬ chainOk uint_hash tChain.mem threshold l →
      transactionValidator uint_hash tChain threshold = some false) ∧
    (∀ fuel l, forward tChain.mem fuel tChain.head = some l → traversal tChain = some l) ∧
    transactionValidator uint_hash transactionChain.empty threshold = some true ∧
    (∀ id, transactionValidator uint_hash (transactionChain.empty.addNew 0 0 0 id) threshold =
      some true) := by
  refine ⟨?_, ?_, fun fuel l h => traversal_of_forward tChain fuel l h, rfl, fun id => rfl⟩
  · constructor
    · intro hv
      unfold transactionValidator at hv
      cases hh : tChain.head with
      | none => exact ⟨[], (traversal_some _ _).mpr (Or.inl ⟨hh, rfl⟩), trivial⟩
      | some h =>
        cases hm : tChain.mem[h]? with
        | none => simp [hh, hm] at hv
        | some hd =>
          simp only [hh, hm] at hv
          obtain ⟨rest, hf, hok⟩ := (validatorLoop_true_iff _ _ _ _ _ _).mp hv
          exact ⟨h :: rest, (traversal_some _ _).mpr (Or.inr ⟨h, hd, rest, hh, hm, hf, rfl⟩),
            hok⟩
    · rintro ⟨l, hl, hok⟩
      unfold transactionValidator
      rcases (traversal_some _ _).mp hl with ⟨hh, _⟩ | ⟨h, hd, rest, hh, hm, hf, e⟩
      · simp [hh]
      · subst e
        simp only [hh, hm]
        exact (validatorLoop_true_iff _ _ _ _ _ _).mpr ⟨rest, hf, hok⟩
  · intro l hl hno
    unfold transactionValidator
    rcases (traversal_some _ _).mp hl with ⟨_, e⟩ | ⟨h, hd, rest, hh, hm, hf, e⟩
    · subst e
      exact absurd trivial hno
    · subst e
      simp only [hh, hm]
      obtain ⟨b, hb⟩ := validatorLoop_total uint_hash tChain.mem threshold tChain.mem.length
        hd.next (some h) rest hf
      cases b with
      | false => exact hb
      | true =>
        obtain ⟨l2, hl2, hok⟩ := (validatorLoop_true_iff _ _ _ _ _ _).mp hb
        rw [hf] at hl2
        cases hl2
        exact absurd hok hno

/-- C6, at the failing input: with FNV-1a as `std::hash<unsigned int>`, the inline word that
`mine` tests for the record `(1, 2647528437, 1073741828)` is 1309865224, within the threshold
2147483647 of difficulty 1, while `hashTransaction` of the same record, which the validator
tests, is 2241638870, above it. In general the two agree on all records exactly when
`std::hash<unsigned int>`, converted to `unsigned int`, is the identity on the even 32-bit
words. -/
theorem C6_inline_word_is_not_hashTransaction :
    (hashValue 1 2647528437 1073741828 = 1309865224 ∧
      hashTransaction fnv1a_hash ⟨1, 2647528437, 1073741828, 0, none, none⟩ = 2241638870 ∧
      threshold_of 1 = 2147483647) ∧
    ∀ uint_hash : Nat → Nat,
      (∀ id prevDigest nonce : Nat,
        hashTransaction uint_hash ⟨id, prevDigest, nonce, 0, none, none⟩ =
          hashValue id prevDigest nonce) ↔
        ∀ x, x < 4294967296 → x % 2 = 0 → uint_hash x % 4294967296 = x :=
  ⟨by decide, hashTransaction_eq_hashValue_iff⟩

/-- C7, at the failing input: in the run of `fnvParams` the thread appends the record
`(1, 2647528437, 1073741828)` after testing its inline word, and `hashTransaction` of that
record is 2241638870, above the threshold 2147483647. -/
theorem C7_appended_record_above_threshold :
    (run fnvParams (List.replicate 6 0) (init fnvParams)).tChain.mem[1]? =
        some ⟨1, 2647528437, 1073741828, 0, none, some 0⟩ ∧
      hashTransaction fnvParams.uint_hash ⟨1, 2647528437, 1073741828, 0, none, some 0⟩ =
        2241638870 ∧
      fnvParams.threshold = 2147483647 := by
  decide

/-- C8: in every state reachable in a single-thread run started from the genesis-only chain,
the chain is traversed in the order of the store, and for every position `i + 1 >= 1` the
record at that position has its `prev` field equal to `hashTransaction` of the record at
position `i`. -/
theorem C8_prev_is_hash_of_predecessor (p : Params) (hW : p.miners = 1)
    (schedule : List Nat) :
    traversal (run p schedule (init p)).tChain =
        some (List.range (run p schedule (init p)).tChain.mem.length) ∧
      ∀ (i : Nat) (u t : transaction),
        (run p schedule (init p)).tChain.mem[i]? = some u →
        (run p schedule (init p)).tChain.mem[i + 1]? = some t →
        t.prev = hashTransaction p.uint_hash u := by
  obtain ⟨hc, hh⟩ := hashInv_run p hW schedule
  refine ⟨traversal_linked _ hc.1, ?_⟩
  intro i u t hu ht
  have h1 : ((run p schedule (init p)).tChain.mem.map payload)[i]? = some (payload u) := by
    rw [List.getElem?_map, hu]; rfl
  have h2 : ((run p schedule (init p)).tChain.mem.map payload)[i + 1]? = some (payload t) := by
    rw [List.getElem?_map, ht]; rfl
  exact hh.1 i (payload u) (payload t) h1 h2

/-- C8 on the completed run of `sampleParams`. -/
theorem C8_prev_is_hash_of_predecessor_witness :
    sampleParams.miners = 1 ∧
      (traversal (run sampleParams (List.replicate 19 0) (init sampleParams)).tChain =
        some (List.range
          (run sampleParams (List.replicate 19 0) (init sampleParams)).tChain.mem.length) ∧
      ∀ (i : Nat) (u t : transaction),
        (run sampleParams (List.replicate 19 0) (init sampleParams)).tChain.mem[i]? = some u →
        (run sampleParams (List.replicate 19 0) (init sampleParams)).tChain.mem[i + 1]? =
          some t →
        t.prev = hashTransaction sampleParams.uint_hash u) :=
  ⟨by decide, C8_prev_is_hash_of_predecessor sampleParams (by decide) (List.replicate 19 0)⟩

/-- C9: for every chain built from the empty chain by adding fresh records, the forward
traversal visits the records in the order they were added, every record after the head has
its backward link on the record before it (the link check of the validator never fails), and
`transactionValidator` returns true if and only if every record after the head has a hash
within the threshold, false otherwise; a second record is accepted whatever its `prev` field
is, as soon as its hash is within the threshold. For instance the two-thread run of
`twoThreadParams` builds a chain whose third record stores the digest 0 although the hash of
its predecessor is 671198, and the validator accepts that chain. -/
theorem C9_built_chain_verdict (uint_hash : Nat → Nat) (recs : List (Nat × Nat × Nat × Nat))
    (threshold : Nat) :
    (buildChain recs).mem.map payload = recs ∧
    traversal (buildChain recs) = some (List.range recs.length) ∧
    (∀ (i : Nat) (t : transaction), 1 ≤ i → (buildChain recs).mem[i]? = some t →
      t.previous = some (i - 1)) ∧
    (transactionValidator uint_hash (buildChain recs) threshold = some true ↔
      ∀ (i : Nat) (t : transaction), 1 ≤ i → (buildChain recs).mem[i]? = some t →
        hashTransaction uint_hash t ≤ threshold) ∧
    (transactionValidator uint_hash (buildChain recs) threshold = some false ↔
      ¬ ∀ (i : Nat) (t : transaction), 1 ≤ i → (buildChain recs).mem[i]? = some t →
        hashTransaction uint_hash t ≤ threshold) ∧
    (∀ (g : Nat × Nat × Nat × Nat) (c q r id : Nat),
      hashTransaction uint_hash ⟨c, q, r, id, none, none⟩ ≤ threshold →
      transactionValidator uint_hash (buildChain [g, (c, q, r, id)]) threshold = some true) ∧
    ((run twoThreadParams
        [0, 1, 0, 1, 0, 1, 0, 1, 0, 1, 0, 1, 0, 1, 0, 1, 0, 1, 0, 1, 0, 1, 0, 1, 0, 1]
        (init twoThreadParams)).tChain =
        buildChain [(0, 0, 0, 2), (10, 0, 7919, 0), (20, 0, 7920, 1), (30, 1326560, 23757, 0)] ∧
      hashTransaction twoThreadParams.uint_hash ⟨10, 0, 7919, 0, none, none⟩ = 671198 ∧
      transactionValidator twoThreadParams.uint_hash
        (buildChain [(0, 0, 0, 2), (10, 0, 7919, 0), (20, 0, 7920, 1), (30, 1326560, 23757, 0)])
        twoThreadParams.threshold = some true) := by
  obtain ⟨hL, hp⟩ := buildChain_linked recs
  have hlen : (buildChain recs).mem.length = recs.length := by
    have := congrArg List.length hp
    simpa using this
  have hv := validator_linked_iff uint_hash (buildChain recs) threshold hL
  refine ⟨hp, ?_, ?_, hv.1, hv.2, ?_, by decide⟩
  · rw [traversal_linked _ hL, hlen]
  · intro i t hi ht
    rw [(hL.2.2 i t ht).2, if_neg (by omega)]
  · intro g c q r id hle
    obtain ⟨hL2, hp2⟩ := buildChain_linked [g, (c, q, r, id)]
    rw [(validator_linked_iff uint_hash _ threshold hL2).1]
    intro i t hi ht
    have hlen2 : (buildChain [g, (c, q, r, id)]).mem.length = 2 := by
      have := congrArg List.length hp2
      simpa using this
    have hlt := (List.getElem?_eq_some_iff.mp ht).1
    have hi1 : i = 1 := by omega
    subst hi1
    have hpt : ((buildChain [g, (c, q, r, id)]).mem.map payload)[1]? = some (payload t) := by
      rw [List.getElem?_map, ht]
      rfl
    rw [hp2] at hpt
    simp only [List.getElem?_cons_succ, List.getElem?_cons_zero, Option.some.injEq] at hpt
    rw [hashTransaction_eq_hashRecord, ← hpt]
    exact hle

/-- C10: for every id, every previous digest and every difficulty from 1 to 10, the threshold
is `2^(32 - difficulty) - 1` and some 32-bit nonce makes the word tested by the search loop,
`(id << 16) ^ (prevDigest << 8) ^ (nonce << 1)`, at most the threshold: the search for a
claimed id can always succeed. -/
theorem C10_search_satisfiable (id prevDigest difficulty : Nat) (h1 : 1 ≤ difficulty)
    (h2 : difficulty ≤ 10) :
    threshold_of difficulty = 2 ^ (32 - difficulty) - 1 ∧
      ∃ nonce, nonce < 4294967296 ∧
        hashValue id prevDigest nonce ≤ threshold_of difficulty := by
  refine ⟨threshold_of_eq difficulty h1 h2, (shl32 id 16 ^^^ shl32 prevDigest 8) / 2, ?_, ?_⟩
  · have := xor_lt_word (shl32_lt id 16) (shl32_lt prevDigest 8)
    omega
  · rw [hashValue_half]
    exact Nat.zero_le _

/-- C10 at difficulty 10, for the id and the digest with all 32 bits set. -/
theorem C10_search_satisfiable_witness :
    (1 ≤ 10 ∧ 10 ≤ 10) ∧
      (threshold_of 10 = 2 ^ (32 - 10) - 1 ∧
        ∃ nonce, nonce < 4294967296 ∧ hashValue 4294967295 4294967295 nonce ≤ threshold_of 10) :=
  ⟨by decide, C10_search_satisfiable 4294967295 4294967295 10 (by decide) (by decide)⟩

end Blockchain
